import Mathlib

/-!
Verification of the ClanTune genetics core (src/clan_tune/genetics): the
allele tree data model, the parallel tree walk and tree synthesis
algorithms, genome operations, and the concrete ancestry / crossbreeding
strategies.  Python floats are modelled as rationals (and as reals where a
fractional power is computed), dicts as association lists, and raised
exceptions as an Except monad.
-/

namespace ClanTune

/-- Python scalar values that can occur as raw allele or metadata values:
float, int, bool, str.  Floats are modelled as rationals. -/
inductive RawVal where
  | rq (q : ℚ)
  | ri (n : ℤ)
  | rb (b : Bool)
  | rs (s : String)
deriving DecidableEq, Repr

/-- Python equality between raw scalar values (numeric kinds compare across
types: 1 == 1.0 == True in Python). -/
def RawVal.pyEq : RawVal → RawVal → Bool
  | .rq a, .rq b => a == b
  | .rq a, .ri b => a == (b : ℚ)
  | .ri a, .rq b => (a : ℚ) == b
  | .ri a, .ri b => a == b
  | .rb a, .rb b => a == b
  | .rb a, .ri b => (if a then (1 : ℤ) else 0) == b
  | .ri a, .rb b => a == (if b then (1 : ℤ) else 0)
  | .rb a, .rq b => (if a then (1 : ℚ) else 0) == b
  | .rq a, .rb b => a == (if b then (1 : ℚ) else 0)
  | .rs a, .rs b => a == b
  | _, _ => false

/-- Variant-specific payload of the five allele classes: stored value plus
stored (already normalised) domain.  The intV variant stores the backing
float, as IntAllele does. -/
inductive AVariant where
  | floatV (value : ℚ) (dmin dmax : Option ℚ)
  | intV (raw : ℚ) (dmin dmax : Option ℤ)
  | logV (value : ℚ) (dmin dmax : Option ℚ)
  | boolV (value : Bool)
  | stringV (value : String) (domain : List String)
deriving DecidableEq, Repr

/-- Value of the domain property of each allele class. -/
inductive Domain where
  | contQ (dmin dmax : Option ℚ)
  | contZ (dmin dmax : Option ℤ)
  | boolD
  | strD (elems : List String)
deriving DecidableEq, Repr

/-- Python equality of two domain values; string domains are Python sets and
compare by membership. -/
def Domain.pyEq : Domain → Domain → Bool
  | .contQ a b, .contQ c d => a == c && b == d
  | .contZ a b, .contZ c d => a == c && b == d
  | .boolD, .boolD => true
  | .strD xs, .strD ys => xs.all (fun x => ys.contains x) && ys.all (fun y => xs.contains y)
  | _, _ => false

def AVariant.domain : AVariant → Domain
  | .floatV _ dmin dmax => .contQ dmin dmax
  | .intV _ dmin dmax => .contZ dmin dmax
  | .logV _ dmin dmax => .contQ dmin dmax
  | .boolV _ => .boolD
  | .stringV _ dom => .strD dom

/-- Python round: round half to even (used by the value property of
IntAllele). -/
def pyRound (q : ℚ) : ℤ :=
  let f := ⌊q⌋
  let frac := q - (f : ℚ)
  if frac < 1/2 then f
  else if 1/2 < frac then f + 1
  else if f % 2 = 0 then f else f + 1

/-- Value property of each allele class.  IntAllele exposes the rounded
integer view of its backing float. -/
def AVariant.value : AVariant → RawVal
  | .floatV v _ _ => .rq v
  | .intV r _ _ => .ri (pyRound r)
  | .logV v _ _ => .rq v
  | .boolV b => .rb b
  | .stringV s _ => .rs s

/-- A node of an allele tree: either a raw scalar metadata value or an
allele with variant payload, the two capability flags, and a metadata dict
mapping string keys to child nodes (alleles or raw scalars). -/
inductive Node where
  | raw (v : RawVal)
  | allele (variant : AVariant) (canMutate canCrossbreed : Bool)
      (metadata : List (String × Node))

/-- Metadata dicts, and also the allele dict of a genome. -/
abbrev Meta := List (String × Node)

mutual

/-- Structural equality test on nodes. -/
def Node.beq : Node → Node → Bool
  | .raw a, .raw b => a == b
  | .allele v1 m1 c1 md1, .allele v2 m2 c2 md2 =>
      v1 == v2 && m1 == m2 && c1 == c2 && Meta.beq md1 md2
  | _, _ => false

/-- Structural equality test on metadata lists. -/
def Meta.beq : Meta → Meta → Bool
  | [], [] => true
  | (k1, n1) :: r1, (k2, n2) :: r2 => k1 == k2 && Node.beq n1 n2 && Meta.beq r1 r2
  | _, _ => false

end

mutual

theorem Node.beqIffEq : ∀ a b : Node, Node.beq a b = true ↔ a = b
  | .raw _, .raw _ => by simp [Node.beq]
  | .raw _, .allele _ _ _ _ => by simp [Node.beq]
  | .allele _ _ _ _, .raw _ => by simp [Node.beq]
  | .allele v1 m1 c1 md1, .allele v2 m2 c2 md2 => by
      have h := Meta.beqIffEqMeta md1 md2
      simp [Node.beq, h, and_assoc]

theorem Meta.beqIffEqMeta : ∀ a b : Meta, Meta.beq a b = true ↔ a = b
  | [], [] => by simp [Meta.beq]
  | [], (_, _) :: _ => by simp [Meta.beq]
  | (_, _) :: _, [] => by simp [Meta.beq]
  | (k1, n1) :: r1, (k2, n2) :: r2 => by
      have h1 := Node.beqIffEq n1 n2
      have h2 := Meta.beqIffEqMeta r1 r2
      simp [Meta.beq, h1, h2, and_assoc]

end

instance : DecidableEq Node := fun a b => decidable_of_iff _ (Node.beqIffEq a b)

/-- Python classes used by type based dispatch: the four raw scalar types
and the five allele classes. -/
inductive PyClass where
  | pFloat | pInt | pBool | pStr
  | cFloat | cInt | cLog | cBool | cString
deriving DecidableEq, Repr

def Node.pyclass : Node → PyClass
  | .raw (.rq _) => .pFloat
  | .raw (.ri _) => .pInt
  | .raw (.rb _) => .pBool
  | .raw (.rs _) => .pStr
  | .allele (.floatV _ _ _) _ _ _ => .cFloat
  | .allele (.intV _ _ _) _ _ _ => .cInt
  | .allele (.logV _ _ _) _ _ _ => .cLog
  | .allele (.boolV _) _ _ _ => .cBool
  | .allele (.stringV _ _) _ _ _ => .cString

def Node.isAllele : Node → Bool
  | .raw _ => false
  | .allele _ _ _ _ => true

/-- Exception kinds surfaced by the modelled code. -/
inductive Err where
  | typeErr
  | valueErr
  | keyErr
  | attributeErr
  | indexErr
deriving DecidableEq, Repr

/-- Clamping of a value against optional bounds, in the order the
constructors apply it: lower bound first, then upper bound. -/
def clampQ (v : ℚ) (dmin dmax : Option ℚ) : ℚ :=
  let v1 := match dmin with
    | some m => max m v
    | none => v
  match dmax with
  | some mM => min mM v1
  | none => v1

/-- Shared constructor path of the five allele classes
(FloatAllele.init, IntAllele.init, LogFloatAllele.init, BoolAllele.init,
StringAllele.init in alleles.py): normalise the domain, validate it, clamp
or validate the value, then store the fields.  LogFloatAllele requires a
positive lower bound; StringAllele requires the value to lie in its
domain; the three continuous classes clamp instead of raising. -/
def mkAllele : AVariant → Bool → Bool → Meta → Except Err Node
  | .floatV v dmin dmax, cm, cc, md =>
      .ok (.allele (.floatV (clampQ v dmin dmax) dmin dmax) cm cc md)
  | .intV r dmin dmax, cm, cc, md =>
      .ok (.allele
        (.intV (clampQ r (dmin.map (fun m => (m : ℚ))) (dmax.map (fun m => (m : ℚ)))) dmin dmax)
        cm cc md)
  | .logV v dmin dmax, cm, cc, md =>
      match dmin with
      | none => .error .valueErr
      | some m =>
          if m ≤ 0 then .error .valueErr
          else .ok (.allele (.logV (clampQ v (some m) dmax) (some m) dmax) cm cc md)
  | .boolV b, cm, cc, md => .ok (.allele (.boolV b) cm cc md)
  | .stringV s dom, cm, cc, md =>
      if dom.contains s then .ok (.allele (.stringV s dom) cm cc md)
      else .error .valueErr

/-- Replacement of the stored value through the subclass constructor
(AbstractAllele.with_value, delegating to with_overrides, which rebuilds
through the constructor with the stored domain, flags and metadata).
IntAllele.with_value accepts ints and floats and converts to float. -/
def Node.withValue : Node → RawVal → Except Err Node
  | .raw _, _ => .error .attributeErr
  | .allele (.floatV _ dmin dmax) cm cc md, .rq v => mkAllele (.floatV v dmin dmax) cm cc md
  | .allele (.intV _ dmin dmax) cm cc md, .rq v => mkAllele (.intV v dmin dmax) cm cc md
  | .allele (.intV _ dmin dmax) cm cc md, .ri v => mkAllele (.intV (v : ℚ) dmin dmax) cm cc md
  | .allele (.logV _ dmin dmax) cm cc md, .rq v => mkAllele (.logV v dmin dmax) cm cc md
  | .allele (.boolV _) cm cc md, .rb v => mkAllele (.boolV v) cm cc md
  | .allele (.stringV _ dom) cm cc md, .rs v => mkAllele (.stringV v dom) cm cc md
  | .allele _ _ _ _, _ => .error .typeErr

/-- Dict lookup on an association list (first matching key wins, as in a
Python dict, whose keys are unique). -/
def lookupMeta (k : String) : Meta → Option Node
  | [] => none
  | (k', v) :: rest => if k' = k then some v else lookupMeta k rest

def metaKeys (md : Meta) : List String := md.map (fun p => p.1)

/-- Python dict.update semantics: existing keys are overwritten in place,
new keys are appended in the order of the updates dict. -/
def updateMeta (md updates : Meta) : Meta :=
  md.map (fun p =>
    match lookupMeta p.1 updates with
    | some w => (p.1, w)
    | none => p)
  ++ updates.filter (fun p => (lookupMeta p.1 md).isNone)

/-- AbstractAllele.with_metadata: merge updates into the metadata dict and
rebuild through the constructor. -/
def Node.withMetadata : Node → Meta → Except Err Node
  | .raw _, _ => .error .attributeErr
  | .allele var cm cc md, updates => mkAllele var cm cc (updateMeta md updates)

def flattenEntry : String × Node → String × Node
  | (k, .allele var _ _ _) => (k, .raw var.value)
  | (k, .raw v) => (k, .raw v)

/-- AbstractAllele.flatten: replace every allele valued metadata entry with
its plain value (one level), rebuilding through with_metadata. -/
def Node.flatten : Node → Except Err Node
  | .raw _ => .error .attributeErr
  | .allele var cm cc md =>
      Node.withMetadata (.allele var cm cc md) (md.map flattenEntry)

/-- AbstractAllele.unflatten: merge resolved children back into metadata
and rebuild through with_metadata. -/
def Node.unflatten : Node → Meta → Except Err Node
  | .raw _, _ => .error .attributeErr
  | .allele var cm cc md, resolved =>
      Node.withMetadata (.allele var cm cc md) (updateMeta md resolved)

/-- The include filter of should_include_node with the two include flags.
The raw case is unreachable in the modelled code paths (the walk and the
synthesis only test alleles). -/
def shouldIncludeFlags (includeMutate includeCrossbreed : Bool) : Node → Bool
  | .raw _ => true
  | .allele _ cm cc _ => (includeMutate || cm) && (includeCrossbreed || cc)

/-- Insertion into a sorted list of strings, ascending. -/
def insertSorted (s : String) : List String → List String
  | [] => [s]
  | k :: ks => if s ≤ k then s :: k :: ks else k :: insertSorted s ks

/-- Ascending lexical sort, as Python sorted applies to string keys. -/
def sortKeys (l : List String) : List String := l.foldr insertSorted []

/-- validate_parallel_types: all nodes of the list must be of one Python
class. -/
def validateParallelTypes (ns : List Node) : Except Err Unit :=
  match ns with
  | [] => .ok ()
  | n :: _ =>
      if ns.all (fun a => a.pyclass == n.pyclass) then .ok ()
      else .error .typeErr

/-- validate_schemas_match: domain, can_mutate and can_crossbreed must be
identical across all alleles of the list, compared against the first.  A
raw element has none of the three properties (AttributeError in Python,
collapsed to an error here); the function is only reached on all-allele
lists. -/
def validateSchemasMatch (ns : List Node) : Except Err Unit :=
  match ns with
  | [] => .error .indexErr
  | .raw _ :: _ => .error .attributeErr
  | .allele var cm cc _ :: rest =>
      if rest.all (fun a =>
          match a with
          | .allele v _ _ _ => Domain.pyEq v.domain var.domain
          | .raw _ => false) = false then .error .valueErr
      else if rest.all (fun a =>
          match a with
          | .allele _ m _ _ => m == cm
          | .raw _ => false) = false then .error .valueErr
      else if rest.all (fun a =>
          match a with
          | .allele _ _ c _ => c == cc
          | .raw _ => false) = false then .error .valueErr
      else .ok ()

/-- Indexing allele.metadata with a key: KeyError when absent,
AttributeError on a raw value. -/
def lookupNode (k : String) : Node → Except Err Node
  | .raw _ => .error .attributeErr
  | .allele _ _ _ md =>
      match lookupMeta k md with
      | some v => .ok v
      | none => .error .keyErr

/-- The per-key extraction [a.metadata[key] for a in nodes]. -/
def lookupAll (k : String) : List Node → Except Err (List Node)
  | [] => .ok []
  | n :: ns =>
      match lookupNode k n with
      | .error e => .error e
      | .ok v =>
          match lookupAll k ns with
          | .error e => .error e
          | .ok vs => .ok (v :: vs)

/-- Union of the metadata key lists, erroring on raw elements
(collect_metadata_keys accesses allele.metadata on every element). -/
def collectKeysAux : List Node → Except Err (List String)
  | [] => .ok []
  | .raw _ :: _ => .error .attributeErr
  | .allele _ _ _ md :: rest =>
      match collectKeysAux rest with
      | .error e => .error e
      | .ok ks => .ok (metaKeys md ++ ks)

/-- collect_metadata_keys: sorted set of all metadata keys across the
nodes. -/
def collectKeys (ns : List Node) : Except Err (List String) :=
  match collectKeysAux ns with
  | .error e => .error e
  | .ok l => .ok (sortKeys l.dedup)

theorem lookupMeta_sizeOf {k : String} :
    ∀ {md : Meta} {v : Node}, lookupMeta k md = some v → sizeOf v < sizeOf md := by
  intro md
  induction md with
  | nil => intro v h; simp [lookupMeta] at h
  | cons p rest ih =>
      intro v h
      obtain ⟨k', v'⟩ := p
      by_cases hk : k' = k
      · simp only [lookupMeta, if_pos hk, Option.some.injEq] at h
        subst h
        simp only [List.cons.sizeOf_spec, Prod.mk.sizeOf_spec]
        omega
      · simp only [lookupMeta, if_neg hk] at h
        have := ih h
        simp only [List.cons.sizeOf_spec, Prod.mk.sizeOf_spec]
        omega

theorem lookupNode_sizeOf {k : String} {n v : Node} (h : lookupNode k n = .ok v) :
    sizeOf v < sizeOf n := by
  cases n with
  | raw w => simp [lookupNode] at h
  | allele var cm cc md =>
      simp only [lookupNode] at h
      cases hm : lookupMeta k md with
      | none => rw [hm] at h; exact absurd h (by simp)
      | some w =>
          rw [hm] at h
          cases h
          have := lookupMeta_sizeOf hm
          simp only [Node.allele.sizeOf_spec]
          omega

theorem lookupAll_cons_inv {k : String} {n : Node} {ns vs : List Node}
    (h : lookupAll k (n :: ns) = .ok vs) :
    ∃ v vrest, lookupNode k n = .ok v ∧ lookupAll k ns = .ok vrest ∧ vs = v :: vrest := by
  simp only [lookupAll] at h
  cases h1 : lookupNode k n with
  | error e => rw [h1] at h; exact absurd h (by simp)
  | ok v =>
      rw [h1] at h
      cases h2 : lookupAll k ns with
      | error e => rw [h2] at h; exact absurd h (by simp)
      | ok vrest =>
          rw [h2] at h
          cases h
          exact ⟨v, vrest, rfl, rfl, rfl⟩

theorem lookupAll_sizeOf {k : String} :
    ∀ {ns vs : List Node}, lookupAll k ns = .ok vs → sizeOf vs ≤ sizeOf ns := by
  intro ns
  induction ns with
  | nil => intro vs h; simp [lookupAll] at h; simp [← h]
  | cons n rest ih =>
      intro vs h
      obtain ⟨v, vrest, hv, hrest, rfl⟩ := lookupAll_cons_inv h
      have h1 := lookupNode_sizeOf hv
      have h2 := ih hrest
      simp only [List.cons.sizeOf_spec]
      omega

mutual

/-- walk_allele_trees on a non-empty list of trees (the Python function
indexes alleles[0], so the head is explicit): validate the classes, then
recurse into the metadata keys children first, then filter, flatten and
invoke the handler, collecting the non-None handler results in invocation
order. -/
def walkTrees (n0 : Node) (rest : List Node) (handler : List Node → Option α)
    (inc : Node → Bool) : Except Err (List α) :=
  match validateParallelTypes (n0 :: rest) with
  | .error e => .error e
  | .ok _ =>
      match collectKeys (n0 :: rest) with
      | .error e => .error e
      | .ok keys =>
          match walkKeys n0 rest keys handler inc with
          | .error e => .error e
          | .ok parts =>
              if inc n0 then
                match (n0 :: rest).mapM Node.flatten with
                | .error e => .error e
                | .ok flat =>
                    match handler flat with
                    | some r => .ok (parts ++ [r])
                    | none => .ok parts
              else .ok parts
termination_by (sizeOf n0 + sizeOf rest, 1, 0)
decreasing_by
  apply Prod.Lex.right
  apply Prod.Lex.left
  omega

/-- The key loop of walk_allele_trees: peek at the value in the first
tree, skip raw values, recurse in parallel on allele values. -/
def walkKeys (n0 : Node) (rest : List Node) (keys : List String)
    (handler : List Node → Option α) (inc : Node → Bool) : Except Err (List α) :=
  match keys with
  | [] => .ok []
  | k :: ks =>
      match lookupNode k n0 with
      | .error e => .error e
      | .ok (.raw _) => walkKeys n0 rest ks handler inc
      | .ok (.allele _ _ _ _) =>
          match hsub : lookupAll k (n0 :: rest) with
          | .error e => .error e
          | .ok [] => .error .indexErr
          | .ok (s0 :: srest) =>
              match walkTrees s0 srest handler inc with
              | .error e => .error e
              | .ok sub =>
                  match walkKeys n0 rest ks handler inc with
                  | .error e => .error e
                  | .ok more => .ok (sub ++ more)
termination_by (sizeOf n0 + sizeOf rest, 0, keys.length)
decreasing_by
  all_goals first
    | (apply Prod.Lex.right
       apply Prod.Lex.right
       simp only [List.length_cons]
       omega)
    | (apply Prod.Lex.left
       obtain ⟨v, vrest, hv, hrest, heq⟩ := lookupAll_cons_inv hsub
       cases heq
       have h1 := lookupNode_sizeOf hv
       have h2 := lookupAll_sizeOf hrest
       omega)

end

mutual

/-- synthesize_allele_trees_impl on a non-empty node list (head explicit).
Base case: a raw first node requires all nodes to carry the same raw
value.  Otherwise: validate classes and schemas, synthesize all metadata
children first, rebuild the template node over the resolved children,
filter, then flatten, invoke the handler and unflatten its result. -/
def synthImpl (tidx : ℕ) (n0 : Node) (rest : List Node)
    (handler : Node → List Node → Node) (inc : Node → Bool) : Except Err Node :=
  match n0 with
  | .raw v =>
      if (n0 :: rest).all (fun m =>
          match m with
          | .raw w => RawVal.pyEq w v
          | .allele _ _ _ _ => false) then .ok (.raw v)
      else .error .valueErr
  | .allele var cm cc md =>
      match validateParallelTypes (.allele var cm cc md :: rest) with
      | .error e => .error e
      | .ok _ =>
          match validateSchemasMatch (.allele var cm cc md :: rest) with
          | .error e => .error e
          | .ok _ =>
              match collectKeys (.allele var cm cc md :: rest) with
              | .error e => .error e
              | .ok keys =>
                  match synthKeys tidx (.allele var cm cc md) rest keys handler inc with
                  | .error e => .error e
                  | .ok resolved =>
                      match (Node.allele var cm cc md :: rest).get? tidx with
                      | none => .error .indexErr
                      | some templateSource =>
                          match templateSource.withMetadata resolved with
                          | .error e => .error e
                          | .ok template =>
                              if inc template then
                                match template.flatten with
                                | .error e => .error e
                                | .ok ft =>
                                    match (Node.allele var cm cc md :: rest).mapM Node.flatten with
                                    | .error e => .error e
                                    | .ok fs => (handler ft fs).unflatten resolved
                              else .ok template
termination_by (sizeOf n0 + sizeOf rest, 1, 0)
decreasing_by
  apply Prod.Lex.right
  apply Prod.Lex.left
  omega

/-- The metadata loop of synthesize_allele_trees_impl: resolve every
collected key in order, recursing with the same template index. -/
def synthKeys (tidx : ℕ) (n0 : Node) (rest : List Node) (keys : List String)
    (handler : Node → List Node → Node) (inc : Node → Bool) : Except Err Meta :=
  match keys with
  | [] => .ok []
  | k :: ks =>
      match hsub : lookupAll k (n0 :: rest) with
      | .error e => .error e
      | .ok [] => .error .indexErr
      | .ok (v0 :: vrest) =>
          match synthImpl tidx v0 vrest handler inc with
          | .error e => .error e
          | .ok r =>
              match synthKeys tidx n0 rest ks handler inc with
              | .error e => .error e
              | .ok rs => .ok ((k, r) :: rs)
termination_by (sizeOf n0 + sizeOf rest, 0, keys.length)
decreasing_by
  all_goals first
    | (apply Prod.Lex.right
       apply Prod.Lex.right
       simp only [List.length_cons]
       omega)
    | (apply Prod.Lex.left
       obtain ⟨v, w, hv, hrest, heq⟩ := lookupAll_cons_inv hsub
       cases heq
       have h1 := lookupNode_sizeOf hv
       have h2 := lookupAll_sizeOf hrest
       omega)

end

/-- walk_allele_trees as exposed by alleles.py: the include filter is
built from the two include flags, and the allele list must not be empty
(Python indexes alleles[0]). -/
def walk_allele_trees (alleles : List Node) (handler : List Node → Option α)
    (includeMutate includeCrossbreed : Bool) : Except Err (List α) :=
  match alleles with
  | [] => .error .indexErr
  | n0 :: rest => walkTrees n0 rest handler (shouldIncludeFlags includeMutate includeCrossbreed)

/-- synthesize_allele_trees: validate that the allele list is non-empty and
that the template occurs in it (Python uses list.index), then run the
implementation with the template index. -/
def synthesize_allele_trees (template : Node) (alleles : List Node)
    (handler : Node → List Node → Node)
    (includeMutate includeCrossbreed : Bool) : Except Err Node :=
  match alleles with
  | [] => .error .valueErr
  | n0 :: rest =>
      match (n0 :: rest).findIdx? (fun a => a = template) with
      | none => .error .valueErr
      | some tidx =>
          synthImpl tidx n0 rest handler (shouldIncludeFlags includeMutate includeCrossbreed)

/-- Modelled from the spec: genome.py and abstract_strategies.py are
written against a predicate taking variant of the tree synthesis (the
predicate argument threaded by synthesize_genomes, and the
CanMutateFilter / CanCrossbreedFilter classes imported from alleles.py,
are absent from src, which only carries the include flag variant).  Per
spec section 4.2 the inclusion filter decides per node whether the
handler runs; an excluded node is returned from the template unchanged
while its descendants are still processed.  Identical to
synthesize_allele_trees except that the filter is the given predicate. -/
def synthesizeAlleleTreesWith (template : Node) (alleles : List Node)
    (handler : Node → List Node → Node) (inc : Node → Bool) : Except Err Node :=
  match alleles with
  | [] => .error .valueErr
  | n0 :: rest =>
      match (n0 :: rest).findIdx? (fun a => a = template) with
      | none => .error .valueErr
      | some tidx => synthImpl tidx n0 rest handler inc

/-- A genome: identifier, named allele trees, optional ancestry, optional
fitness (genome.py).  Identifiers are modelled as strings; fresh
identifiers from uuid4 are taken as explicit arguments. -/
structure Genome where
  uuid : String
  alleles : Meta
  parents : Option (List (ℚ × String))
  fitness : Option ℚ
deriving DecidableEq

/-- Genome.with_overrides: a None argument preserves the current field. -/
def Genome.withOverrides (g : Genome) (uuid : Option String) (alleles : Option Meta)
    (parents : Option (List (ℚ × String))) (fitness : Option ℚ) : Genome :=
  { uuid := match uuid with
      | some u => u
      | none => g.uuid
    alleles := match alleles with
      | some a => a
      | none => g.alleles
    parents := match parents with
      | some p => some p
      | none => g.parents
    fitness := match fitness with
      | some f => some f
      | none => g.fitness }

/-- Genome.set_fitness: assign fitness, preserving the identifier unless
new_uuid is requested. -/
def Genome.setFitness (g : Genome) (value : ℚ) (newUuid : Bool) (fresh : String) : Genome :=
  if newUuid then g.withOverrides (some fresh) none none (some value)
  else g.withOverrides none none none (some value)

/-- Genome.with_alleles: new allele package, new identifier, parents and
fitness preserved. -/
def Genome.withAlleles (g : Genome) (fresh : String) (alleles : Meta) : Genome :=
  g.withOverrides (some fresh) (some alleles) none none

/-- Genome.with_ancestry: new ancestry package, new identifier, alleles
and fitness preserved. -/
def Genome.withAncestry (g : Genome) (fresh : String) (parents : List (ℚ × String)) : Genome :=
  g.withOverrides (some fresh) none (some parents) none

/-- Key set equality of two dicts, as Python set(keys) comparison. -/
def keySetEq (a b : Meta) : Bool :=
  (metaKeys a).all (fun k => (metaKeys b).contains k)
    && (metaKeys b).all (fun k => (metaKeys a).contains k)

/-- The hyperparameter loop of synthesize_genomes: for every name of the
first genome, extract that allele from every genome, synthesize with the
template at the stable index. -/
def synthAllAlleles (tidx : ℕ) (pop : List Genome) (names : List String)
    (handler : Node → List Node → Node) (inc : Node → Bool) : Except Err Meta :=
  match names with
  | [] => .ok []
  | name :: more =>
      match pop.mapM (fun g =>
          match lookupMeta name g.alleles with
          | some a => Except.ok a
          | none => Except.error Err.keyErr) with
      | .error e => .error e
      | .ok alleles =>
          match alleles.get? tidx with
          | none => .error .indexErr
          | some templateAllele =>
              match synthesizeAlleleTreesWith templateAllele alleles handler inc with
              | .error e => .error e
              | .ok newAllele =>
                  match synthAllAlleles tidx pop more handler inc with
                  | .error e => .error e
                  | .ok done => .ok ((name, newAllele) :: done)

/-- synthesize_genomes (genome.py): validate the population, locate the
template genome, synthesize every hyperparameter, and return a new genome
with a fresh identifier, no parents and no fitness. -/
def synthesize_genomes (fresh : String) (mainGenome : Genome) (population : List Genome)
    (handler : Node → List Node → Node) (inc : Node → Bool) : Except Err Genome :=
  match population with
  | [] => .error .valueErr
  | g0 :: grest =>
      if (g0 :: grest).contains mainGenome = false then .error .valueErr
      else if ((g0 :: grest).all (fun g => keySetEq g.alleles g0.alleles)) = false then
        .error .valueErr
      else
        match (g0 :: grest).findIdx? (fun g => g = mainGenome) with
        | none => .error .valueErr
        | some tidx =>
            match synthAllAlleles tidx (g0 :: grest) (metaKeys g0.alleles) handler inc with
            | .error e => .error e
            | .ok newAlleles => .ok ⟨fresh, newAlleles, none, none⟩

/-- Modelled from the spec: the CanCrossbreedFilter class imported by
abstract_strategies.py from alleles.py is absent from src; per spec
section 4.4, crossbreeding is restricted to nodes with
can_crossbreed = true. -/
def CanCrossbreedFilter : Node → Bool
  | .raw _ => true
  | .allele _ _ cc _ => cc

/-- Modelled from the spec: the CanMutateFilter class imported by
abstract_strategies.py from alleles.py is absent from src; per spec
section 4.4, mutation is restricted to nodes with can_mutate = true. -/
def CanMutateFilter : Node → Bool
  | .raw _ => true
  | .allele _ cm _ _ => cm

/-- AbstractAncestryStrategy.apply_strategy: validate that every genome
has fitness, that the candidate is a member, dispatch to the concrete
select_ancestry hook, and validate the declared length. -/
def applyAncestryStrategy (select : Genome → List Genome → List (ℚ × String))
    (myGenome : Genome) (population : List Genome) : Except Err (List (ℚ × String)) :=
  if population.all (fun g => g.fitness.isSome) = false then .error .valueErr
  else if population.contains myGenome = false then .error .valueErr
  else
    let ancestry := select myGenome population
    if ancestry.length ≠ population.length then .error .valueErr
    else .ok ancestry

/-- AbstractCrossbreedingStrategy.apply_strategy: synthesize the offspring
from the population with the candidate as template, the concrete
handle_crossbreeding hook as handler with the ancestry injected, and the
crossbreed filter.  The keyword context plumbing is modelled as direct
closure injection (spec section 4.3). -/
def applyCrossbreeding (fresh : String)
    (handler : Node → List Node → List (ℚ × String) → Node)
    (myGenome : Genome) (population : List Genome)
    (ancestry : List (ℚ × String)) : Except Err Genome :=
  synthesize_genomes fresh myGenome population
    (fun t srcs => handler t srcs ancestry) CanCrossbreedFilter

/-- AbstractMutationStrategy.apply_strategy: append the mutatee to the
population, synthesize with the mutatee as template and the mutate
filter, stripping the mutatee from the allele population the hook sees
(the append then pop adapter). -/
def applyMutation (fresh : String)
    (handler : Node → List Node → List (ℚ × String) → Node)
    (genome : Genome) (population : List Genome)
    (ancestry : List (ℚ × String)) : Except Err Genome :=
  synthesize_genomes fresh genome (population ++ [genome])
    (fun t srcs => handler t srcs.dropLast ancestry) CanMutateFilter

/-- StrategyOrchestrator.call: ancestry selection, then crossbreeding,
then mutation, then ancestry attachment.  The three fresh identifiers
consumed by the three genome rebuilding steps are explicit. -/
def orchestratorCall (select : Genome → List Genome → List (ℚ × String))
    (crossHandler mutHandler : Node → List Node → List (ℚ × String) → Node)
    (myGenome : Genome) (population : List Genome)
    (u1 u2 u3 : String) : Except Err Genome :=
  match applyAncestryStrategy select myGenome population with
  | .error e => .error e
  | .ok ancestry =>
      match applyCrossbreeding u1 crossHandler myGenome population ancestry with
      | .error e => .error e
      | .ok offspring =>
          match applyMutation u2 mutHandler offspring population ancestry with
          | .error e => .error e
          | .ok mutated => .ok (mutated.withAncestry u3 ancestry)

/-- Fitness with the validated default (select_ancestry only runs after
apply_strategy has checked that every fitness is set, so the default
never surfaces in the modelled call paths). -/
def Genome.fitnessOf (g : Genome) : ℚ := g.fitness.getD 0

/-- Python min over a non-empty list with a key function: the first
element attaining the least key. -/
def minByFitness (g0 : Genome) (gs : List Genome) : Genome :=
  gs.foldl (fun acc g => if g.fitnessOf < acc.fitnessOf then g else acc) g0

/-- The genomes sampled by round r: calls r*size .. r*size+size-1 of the
choose hook. -/
def tournamentOf (size : ℕ) (choose : ℕ → Genome) (r : ℕ) : List Genome :=
  (List.range size).map (fun j => choose (r * size + j))

/-- One tournament round of TournamentSelection.select_ancestry: sample
the tournament, take the lowest fitness genome as winner, increment its
win count.  The empty tournament branch is unreachable (the constructor
requires size at least 2). -/
def tournamentStep (size : ℕ) (choose : ℕ → Genome) (cnt : String → ℕ) (r : ℕ) :
    String → ℕ :=
  match tournamentOf size choose r with
  | [] => cnt
  | g :: gs =>
      let winner := minByFitness g gs
      fun u => if u = winner.uuid then cnt u + 1 else cnt u

/-- TournamentSelection.select_ancestry with the sampling hook explicit:
choose k is the genome the k-th call of the choose hook returns
(random.choice in the source, overridden in tests); round r consumes
calls r*size .. r*size+size-1. -/
def tournamentSelect (size rounds : ℕ) (population : List Genome)
    (choose : ℕ → Genome) : List (ℚ × String) :=
  let counts : String → ℕ :=
    (List.range rounds).foldl (tournamentStep size choose) (fun _ => 0)
  population.map (fun g => ((counts g.uuid : ℚ) / (rounds : ℚ), g.uuid))

/-- Winner of round r, written from the spec wording: the sampled genomes
of the round, with the lowest fitness one winning (first on ties). -/
def roundWinner (size : ℕ) (choose : ℕ → Genome) (r : ℕ) : Option Genome :=
  match tournamentOf size choose r with
  | [] => none
  | g :: gs => some (minByFitness g gs)

/-- Number of tournaments won by the genome with identifier u, written
from the spec wording. -/
def winCount (size rounds : ℕ) (choose : ℕ → Genome) (u : String) : ℕ :=
  ((List.range rounds).filter
    (fun r => (roundWinner size choose r).map Genome.uuid = some u)).length

/-- Comparison key of TopN: sort positions by probability descending,
ties toward the lower index (the Python sort key (-prob, index)). -/
def topIdxLe (ancestry : List (ℚ × String)) (i j : ℕ) : Bool :=
  let pi := ((ancestry.get? i).map Prod.fst).getD 0
  let pj := ((ancestry.get? j).map Prod.fst).getD 0
  if pi = pj then decide (i ≤ j) else decide (pj < pi)

def insertByLe (le : ℕ → ℕ → Bool) (x : ℕ) : List ℕ → List ℕ
  | [] => [x]
  | y :: ys => if le x y then x :: y :: ys else y :: insertByLe le x ys

def sortByLe (le : ℕ → ℕ → Bool) (l : List ℕ) : List ℕ := l.foldr (insertByLe le) []

/-- The retained index set of TopN: the first n positions in the sorted
order. -/
def topNTopIdx (n : ℕ) (ancestry : List (ℚ × String)) : List ℕ :=
  (sortByLe (topIdxLe ancestry) (List.range ancestry.length)).take n

/-- The clipped declaration of TopN: retained entries keep their
probability, all others are zeroed. -/
def topNClipped (n : ℕ) (ancestry : List (ℚ × String)) : List (ℚ × String) :=
  ancestry.enum.map (fun p => (if (topNTopIdx n ancestry).contains p.1 then p.2.1 else 0, p.2.2))

/-- TopN.select_ancestry applied to the wrapped strategy output: clip to
the top n, then renormalize unless the retained sum is zero, in which
case the clipped declaration is returned as is. -/
def topNSelect (n : ℕ) (ancestry : List (ℚ × String)) : List (ℚ × String) :=
  let clipped := topNClipped n ancestry
  let total := (clipped.map Prod.fst).sum
  if total = 0 then clipped
  else clipped.map (fun p => (p.1 / total, p.2))

/-- Beta of simulated binary crossover from the first uniform draw
(crossbreeding_strategies.py lines 150 to 154). -/
noncomputable def sbxBeta (eta u : ℝ) : ℝ :=
  if u ≤ 1/2 then (2*u) ^ (1/(eta+1)) else (1/(2*(1-u))) ^ (1/(eta+1))

/-- Offspring value of simulated binary crossover from the two parent
values, eta and the two uniform draws (lines 150 to 160). -/
noncomputable def sbxValue (p1 p2 eta u r : ℝ) : ℝ :=
  if r < 1/2 then 0.5 * ((1 + sbxBeta eta u) * p1 + (1 - sbxBeta eta u) * p2)
  else 0.5 * ((1 - sbxBeta eta u) * p1 + (1 + sbxBeta eta u) * p2)

/-- Positions of the ancestry entries with non-zero probability (line
142). -/
def sbxLiveIndices (ancestry : List (ℚ × String)) : List ℕ :=
  (List.range ancestry.length).filter (fun i => 0 < ((ancestry.get? i).map Prod.fst).getD 0)

/-- SimulatedBinaryCrossover.handle_crossbreeding on the numeric plane:
eta from the flattened template metadata when present, the default eta
otherwise; exactly two live parents required; parent values are read at
the two live indices of the allele population, whose values are the
list argument. -/
noncomputable def sbxHandleCrossbreeding (defaultEta : ℝ) (etaMeta : Option ℚ)
    (ancestry : List (ℚ × String)) (populationValues : List ℝ) (u r : ℝ) : Except Err ℝ :=
  let eta : ℝ := match etaMeta with
    | some q => (q : ℝ)
    | none => defaultEta
  match sbxLiveIndices ancestry with
  | [i, j] =>
      match populationValues.get? i, populationValues.get? j with
      | some p1, some p2 => .ok (sbxValue p1 p2 eta u r)
      | _, _ => .error .indexErr
  | _ => .error .valueErr

/-- Serialized records: the JSON-like Python values produced by serialize
(floats, ints, bools, strings, None, dicts, lists). -/
inductive SVal where
  | sF (q : ℚ)
  | sI (n : ℤ)
  | sB (b : Bool)
  | sS (s : String)
  | sNone
  | sDict (fields : List (String × SVal))
  | sList (items : List SVal)

def rawToS : RawVal → SVal
  | .rq q => .sF q
  | .ri n => .sI n
  | .rb b => .sB b
  | .rs s => .sS s

def lookupS (k : String) : List (String × SVal) → Option SVal
  | [] => none
  | (k', v) :: rest => if k' = k then some v else lookupS k rest

def optQToS : Option ℚ → SVal
  | some q => .sF q
  | none => .sNone

def optZToS : Option ℤ → SVal
  | some n => .sI n
  | none => .sNone

/-- Python class name of each allele variant, the type tag of the
serialized record. -/
def AVariant.className : AVariant → String
  | .floatV _ _ _ => "FloatAllele"
  | .intV _ _ _ => "IntAllele"
  | .logV _ _ _ => "LogFloatAllele"
  | .boolV _ => "BoolAllele"
  | .stringV _ _ => "StringAllele"

/-- serialize_subclass of each allele class, without the flags (value and
domain; BoolAllele serializes no domain; IntAllele serializes the backing
float; StringAllele serializes its domain as a list). -/
def AVariant.serializeFields : AVariant → List (String × SVal)
  | .floatV v dmin dmax =>
      [("value", .sF v), ("domain", .sDict [("min", optQToS dmin), ("max", optQToS dmax)])]
  | .intV r dmin dmax =>
      [("value", .sF r), ("domain", .sDict [("min", optZToS dmin), ("max", optZToS dmax)])]
  | .logV v dmin dmax =>
      [("value", .sF v), ("domain", .sDict [("min", optQToS dmin), ("max", optQToS dmax)])]
  | .boolV b => [("value", .sB b)]
  | .stringV s dom => [("value", .sS s), ("domain", .sList (dom.map SVal.sS))]

mutual

/-- AbstractAllele.serialize: the type tag, the subclass fields, the two
flags, then the recursively serialized metadata (raw metadata values pass
through unchanged). -/
def serializeNode : Node → SVal
  | .raw v => rawToS v
  | .allele var cm cc md =>
      .sDict ([("type", .sS var.className)] ++ var.serializeFields ++
        [("can_mutate", .sB cm), ("can_crossbreed", .sB cc),
         ("metadata", .sDict (serializeMeta md))])

def serializeMeta : Meta → List (String × SVal)
  | [] => []
  | (k, n) :: rest => (k, serializeNode n) :: serializeMeta rest

end

theorem lookupS_sizeOf {k : String} :
    ∀ {fields : List (String × SVal)} {v : SVal}, lookupS k fields = some v → sizeOf v < sizeOf fields := by
  intro fields
  induction fields with
  | nil => intro v h; simp [lookupS] at h
  | cons p rest ih =>
      intro v h
      obtain ⟨k', v'⟩ := p
      by_cases hk : k' = k
      · simp only [lookupS, if_pos hk, Option.some.injEq] at h
        subst h
        simp only [List.cons.sizeOf_spec, Prod.mk.sizeOf_spec]
        omega
      · simp only [lookupS, if_neg hk] at h
        have := ih h
        simp only [List.cons.sizeOf_spec, Prod.mk.sizeOf_spec]
        omega

/-- Reading a numeric field (Python accepts ints where floats go). -/
def svalNum : SVal → Option ℚ
  | .sF q => some q
  | .sI n => some ((n : ℚ))
  | _ => none

/-- Reading an optional rational bound from a normalised domain dict. -/
def svalBoundQ : Option SVal → Except Err (Option ℚ)
  | none => .ok none
  | some .sNone => .ok none
  | some (.sF q) => .ok (some q)
  | some (.sI n) => .ok (some ((n : ℚ)))
  | some _ => .error .typeErr

/-- Reading an optional integer bound from a normalised domain dict. -/
def svalBoundZ : Option SVal → Except Err (Option ℤ)
  | none => .ok none
  | some .sNone => .ok none
  | some (.sI n) => .ok (some n)
  | some _ => .error .typeErr

/-- deserialize_subclass of each allele class: extract the fields and pass
them through the constructor (which revalidates and clamps). -/
def deserializeVariant (tname : String) (fields : List (String × SVal)) (md : Meta) :
    Except Err Node :=
  match lookupS "can_mutate" fields, lookupS "can_crossbreed" fields with
  | some (.sB cm), some (.sB cc) =>
      if tname = "FloatAllele" ∨ tname = "LogFloatAllele" then
        match lookupS "value" fields with
        | some v =>
            match svalNum v with
            | none => .error .typeErr
            | some q =>
                match lookupS "domain" fields with
                | some (.sDict dom) =>
                    match svalBoundQ (lookupS "min" dom), svalBoundQ (lookupS "max" dom) with
                    | .ok dmin, .ok dmax =>
                        if tname = "FloatAllele" then mkAllele (.floatV q dmin dmax) cm cc md
                        else mkAllele (.logV q dmin dmax) cm cc md
                    | _, _ => .error .typeErr
                | _ => .error .typeErr
        | none => .error .keyErr
      else if tname = "IntAllele" then
        match lookupS "value" fields with
        | some v =>
            match svalNum v with
            | none => .error .typeErr
            | some q =>
                match lookupS "domain" fields with
                | some (.sDict dom) =>
                    match svalBoundZ (lookupS "min" dom), svalBoundZ (lookupS "max" dom) with
                    | .ok dmin, .ok dmax => mkAllele (.intV q dmin dmax) cm cc md
                    | _, _ => .error .typeErr
                | _ => .error .typeErr
        | none => .error .keyErr
      else if tname = "BoolAllele" then
        match lookupS "value" fields with
        | some (.sB b) => mkAllele (.boolV b) cm cc md
        | some _ => .error .valueErr
        | none => .error .keyErr
      else if tname = "StringAllele" then
        match lookupS "value" fields with
        | some (.sS s) =>
            match lookupS "domain" fields with
            | some (.sList items) =>
                match items.mapM (fun it =>
                    match it with
                    | .sS x => some x
                    | _ => none) with
                | some dom => mkAllele (.stringV s dom) cm cc md
                | none => .error .typeErr
            | _ => .error .typeErr
        | some _ => .error .valueErr
        | none => .error .keyErr
      else .error .valueErr
  | _, _ => .error .keyErr

mutual

/-- AbstractAllele.deserialize: type tag dispatch over the registry, with
the metadata deserialized first (a metadata value that is a dict with a
type field is a nested allele, anything else stays raw). -/
def deserializeNode (data : SVal) : Except Err Node :=
  match data with
  | .sDict fields =>
      (match lookupS "type" fields with
       | none => .error .valueErr
       | some (.sS tname) =>
           match hmd : lookupS "metadata" fields with
           | some (.sDict mdFields) =>
               (match deserializeMeta mdFields with
                | .error e => .error e
                | .ok md => deserializeVariant tname fields md)
           | none => deserializeVariant tname fields []
           | some _ => .error .attributeErr
       | some _ => .error .valueErr)
  | _ => .error .attributeErr
termination_by sizeOf data
decreasing_by
  have h1 := lookupS_sizeOf hmd
  simp only [SVal.sDict.sizeOf_spec] at h1 ⊢
  omega

def deserializeMeta (l : List (String × SVal)) : Except Err Meta :=
  match l with
  | [] => .ok []
  | (k, v) :: rest =>
      (match v with
       | .sDict fields =>
           if (lookupS "type" fields).isSome then
             (match deserializeNode (.sDict fields) with
              | .error e => .error e
              | .ok n =>
                  match deserializeMeta rest with
                  | .error e => .error e
                  | .ok ns => .ok ((k, n) :: ns))
           else .error .typeErr
       | .sF q =>
           (match deserializeMeta rest with
            | .error e => .error e
            | .ok ns => .ok ((k, .raw (.rq q)) :: ns))
       | .sI n =>
           (match deserializeMeta rest with
            | .error e => .error e
            | .ok ns => .ok ((k, .raw (.ri n)) :: ns))
       | .sB b =>
           (match deserializeMeta rest with
            | .error e => .error e
            | .ok ns => .ok ((k, .raw (.rb b)) :: ns))
       | .sS s =>
           (match deserializeMeta rest with
            | .error e => .error e
            | .ok ns => .ok ((k, .raw (.rs s)) :: ns))
       | _ => .error .typeErr)
termination_by sizeOf l
decreasing_by
  all_goals simp only [List.cons.sizeOf_spec, Prod.mk.sizeOf_spec, SVal.sDict.sizeOf_spec]
  all_goals omega

end

/-- Genome.serialize: uuid as string, recursively serialized alleles,
parents as a list of (probability, uuid string) pairs or None, fitness or
None. -/
def Genome.serialize (g : Genome) : SVal :=
  .sDict [("uuid", .sS g.uuid),
          ("alleles", .sDict (serializeMeta g.alleles)),
          ("parents", match g.parents with
            | none => .sNone
            | some ps => .sList (ps.map (fun p => .sList [.sF p.1, .sS p.2]))),
          ("fitness", match g.fitness with
            | none => .sNone
            | some f => .sF f)]

/-- The allele dict loop of Genome.deserialize: every entry through
AbstractAllele.deserialize. -/
def deserializeAlleles : List (String × SVal) → Except Err Meta
  | [] => .ok []
  | (k, v) :: rest =>
      match deserializeNode v with
      | .error e => .error e
      | .ok n =>
          match deserializeAlleles rest with
          | .error e => .error e
          | .ok ns => .ok ((k, n) :: ns)

def parseParentPair : SVal → Except Err (ℚ × String)
  | .sList [.sF p, .sS u] => .ok (p, u)
  | _ => .error .typeErr

def parseParents : SVal → Except Err (Option (List (ℚ × String)))
  | .sNone => .ok none
  | .sList items =>
      match items.mapM parseParentPair with
      | .error e => .error e
      | .ok ps => .ok (some ps)
  | _ => .error .typeErr

/-- Genome.deserialize: reconstruct uuid, alleles, parents and fitness
from the serialized record. -/
def Genome.deserialize (data : SVal) : Except Err Genome :=
  match data with
  | .sDict fields =>
      (match lookupS "uuid" fields, lookupS "alleles" fields,
             lookupS "parents" fields, lookupS "fitness" fields with
       | some (.sS u), some (.sDict aFields), some pv, some fv =>
           (match deserializeAlleles aFields with
            | .error e => .error e
            | .ok alleles =>
                match parseParents pv with
                | .error e => .error e
                | .ok parents =>
                    match fv with
                    | .sNone => .ok ⟨u, alleles, parents, none⟩
                    | .sF f => .ok ⟨u, alleles, parents, some f⟩
                    | _ => .error .typeErr)
       | _, _, _, _ => .error .keyErr)
  | _ => .error .attributeErr

/-- Constructor established invariant of the stored variant: the stored
value is clamped (so re-clamping is the identity), a log domain has a
positive lower bound, a string value lies in its domain. -/
def wfVariant : AVariant → Bool
  | .floatV v dmin dmax => clampQ v dmin dmax == v
  | .intV r dmin dmax =>
      clampQ r (dmin.map (fun m => (m : ℚ))) (dmax.map (fun m => (m : ℚ))) == r
  | .logV v dmin dmax =>
      match dmin with
      | some m => decide (0 < m) && clampQ v (some m) dmax == v
      | none => false
  | .boolV _ => true
  | .stringV s dom => dom.contains s

mutual

/-- Well-formed node: every allele in the tree was produced through the
constructor path. -/
def wfNode : Node → Bool
  | .raw _ => true
  | .allele var _ _ md => wfVariant var && wfMeta md

def wfMeta : Meta → Bool
  | [] => true
  | (_, n) :: rest => wfNode n && wfMeta rest

end

/-- Well-formed genome: every named entry is a well-formed allele tree
whose root is an allele. -/
def wfAlleles : Meta → Bool
  | [] => true
  | (_, n) :: rest => n.isAllele && wfNode n && wfAlleles rest

def wfGenome (g : Genome) : Bool := wfAlleles g.alleles

/-- Key sets equality at the top: every key of the second dict occurs in
the first. -/
def keysIncl (a b : Meta) : Bool :=
  (metaKeys a).all (fun k => (lookupMeta k b).isSome)

mutual

/-- The shape relation of the synthesis template invariant: at every
node, equal domain, equal can_mutate, equal can_crossbreed, and equal
metadata key set, recursively along the shared keys. -/
def sameShapeN : Node → Node → Bool
  | .raw _, .raw _ => true
  | .allele v1 m1 c1 md1, .allele v2 m2 c2 md2 =>
      Domain.pyEq v1.domain v2.domain && m1 == m2 && c1 == c2 &&
      sameShapeKeys md1 md2 && keysIncl md2 md1
  | _, _ => false

/-- For every entry of the first dict, the second has the key and the
values agree in shape. -/
def sameShapeKeys : Meta → Meta → Bool
  | [], _ => true
  | (k, v) :: rest, md2 =>
      (match lookupMeta k md2 with
       | some w => sameShapeN v w
       | none => false) && sameShapeKeys rest md2

end

/-- Condition on a handler result against the flattened template it was
given: an allele with the same domain, the same flags and the same
metadata key set (the convention template.with_value follows). -/
def topShapeOk : Node → Node → Bool
  | .allele v1 m1 c1 md1, .allele v2 m2 c2 md2 =>
      Domain.pyEq v1.domain v2.domain && m1 == m2 && c1 == c2 &&
      keysIncl md1 md2 && keysIncl md2 md1
  | _, _ => false

/-- A handler whose every result preserves the top level shape of the
allele template argument (the synthesis only ever hands alleles to the
handler). -/
def handlerTopOk (handler : Node → List Node → Node) : Prop :=
  ∀ t srcs, t.isAllele = true → topShapeOk (handler t srcs) t = true

/-- Flattening without the constructor detour: for dict shaped, well
formed alleles this equals Node.flatten. -/
def specFlatten : Node → Node
  | .raw v => .raw v
  | .allele var cm cc md => .allele var cm cc (md.map flattenEntry)

mutual

/-- Python dict shaped node: unique metadata keys at every level. -/
def dictNode : Node → Bool
  | .raw _ => true
  | .allele _ _ _ md => decide (metaKeys md).Nodup && dictMeta md

def dictMeta : Meta → Bool
  | [] => true
  | (_, n) :: rest => dictNode n && dictMeta rest

end

mutual

/-- The walk order written from the spec wording: at each node, first the
results of the metadata keys in lexical order, recursing only into allele
values; after the children, if the node passes the inclusion filter, the
handler result on the flattened node (skipped when None). -/
def specWalkNode (n : Node) (handler : List Node → Option α) (inc : Node → Bool) : List α :=
  match n with
  | .raw _ => []
  | .allele var cm cc md =>
      specWalkKeys md (sortKeys (metaKeys md).dedup) handler inc ++
      (if inc (.allele var cm cc md) then
        (handler [specFlatten (.allele var cm cc md)]).toList
       else [])
termination_by (sizeOf n, 0)
decreasing_by
  apply Prod.Lex.left
  simp only [Node.allele.sizeOf_spec]
  omega

def specWalkKeys (md : Meta) (keys : List String) (handler : List Node → Option α)
    (inc : Node → Bool) : List α :=
  match keys with
  | [] => []
  | k :: ks =>
      (match hk : lookupMeta k md with
       | some (.allele v m c md2) => specWalkNode (.allele v m c md2) handler inc
       | _ => []) ++ specWalkKeys md ks handler inc
termination_by (sizeOf md, keys.length)
decreasing_by
  · apply Prod.Lex.left
    have := lookupMeta_sizeOf hk
    simp only [Node.allele.sizeOf_spec] at this ⊢
    omega
  · apply Prod.Lex.right
    simp only [List.length_cons]
    omega

end

/-! Claim theorems. -/

/-- C3: for linear (FloatAllele), log (LogFloatAllele) and integer
(IntAllele) alleles with bounds min and max, construction and with_value
clamp a value below min to exactly min, a value above max to exactly max,
and store an in-range value unchanged, raising no error; with_value
rebuilds through the same constructor, and the integer variant rounds an
integral bound back to itself. -/
theorem claim_C3_domain_clamping :
    ∀ (v m mM : ℚ) (mz mMz : ℤ) (cm cc : Bool) (md : Meta),
      (mkAllele (.floatV v (some m) (some mM)) cm cc md
        = .ok (.allele (.floatV (clampQ v (some m) (some mM)) (some m) (some mM)) cm cc md))
      ∧ (0 < m →
          mkAllele (.logV v (some m) (some mM)) cm cc md
            = .ok (.allele (.logV (clampQ v (some m) (some mM)) (some m) (some mM)) cm cc md))
      ∧ (mkAllele (.intV v (some mz) (some mMz)) cm cc md
          = .ok (.allele
              (.intV (clampQ v (some (mz : ℚ)) (some (mMz : ℚ))) (some mz) (some mMz))
              cm cc md))
      ∧ (∀ v0 dmin dmax,
          Node.withValue (.allele (.floatV v0 dmin dmax) cm cc md) (.rq v)
            = mkAllele (.floatV v dmin dmax) cm cc md)
      ∧ (∀ v0 dmin dmax,
          Node.withValue (.allele (.logV v0 dmin dmax) cm cc md) (.rq v)
            = mkAllele (.logV v dmin dmax) cm cc md)
      ∧ (∀ v0 dmin dmax,
          Node.withValue (.allele (.intV v0 dmin dmax) cm cc md) (.rq v)
            = mkAllele (.intV v dmin dmax) cm cc md)
      ∧ (m ≤ mM →
          (v < m → clampQ v (some m) (some mM) = m)
          ∧ (mM < v → clampQ v (some m) (some mM) = mM)
          ∧ (m ≤ v → v ≤ mM → clampQ v (some m) (some mM) = v))
      ∧ (∀ n : ℤ, pyRound ((n : ℚ)) = n) := by
  intro v m mM mz mMz cm cc md
  refine ⟨rfl, ?_, rfl, fun _ _ _ => rfl, fun _ _ _ => rfl, fun _ _ _ => rfl, ?_, ?_⟩
  · intro hm
    simp [mkAllele, not_le.mpr hm]
  · intro hmM
    refine ⟨?_, ?_, ?_⟩
    · intro hv
      simp only [clampQ]
      rw [max_eq_left (le_of_lt hv), min_eq_right hmM]
    · intro hv
      simp only [clampQ]
      rw [max_eq_right (le_of_lt (lt_of_le_of_lt hmM hv)), min_eq_left (le_of_lt hv)]
    · intro h1 h2
      simp only [clampQ]
      rw [max_eq_right h1, min_eq_right h2]
  · intro n
    simp [pyRound]

/-- Witness for C3 at concrete inputs: bounds 0 and 1, value below, above
and inside, and a log allele with positive bounds. -/
theorem claim_C3_domain_clamping_witness :
    clampQ (-3) (some 0) (some 1) = 0
    ∧ clampQ 7 (some 0) (some 1) = 1
    ∧ clampQ (1/2) (some 0) (some 1) = 1/2
    ∧ mkAllele (.logV (1/8) (some (1/4)) (some 2)) true true []
        = .ok (.allele (.logV (clampQ (1/8) (some (1/4)) (some 2)) (some (1/4)) (some 2)) true true [])
    ∧ pyRound ((5 : ℤ) : ℚ) = 5 := by
  obtain ⟨_, _, _, _, _, _, hcl, _⟩ :=
    claim_C3_domain_clamping (-3) 0 1 0 10 true true []
  obtain ⟨_, _, _, _, _, _, hcl2, _⟩ :=
    claim_C3_domain_clamping 7 0 1 0 10 true true []
  obtain ⟨_, _, _, _, _, _, hcl3, _⟩ :=
    claim_C3_domain_clamping (1/2) 0 1 0 10 true true []
  obtain ⟨_, hlog, _, _, _, _, _, hround⟩ :=
    claim_C3_domain_clamping (1/8) (1/4) 2 0 10 true true []
  exact ⟨(hcl (by norm_num)).1 (by norm_num),
    (hcl2 (by norm_num)).2.1 (by norm_num),
    ((hcl3 (by norm_num)).2.2 (by norm_num)) (by norm_num),
    hlog (by norm_num),
    hround 5⟩

/-- C9: Genome.with_overrides treats every None argument as preserving
the current field, so no rebuild through it (set_fitness, with_alleles,
with_ancestry included) can reset an already set fitness or parents back
to None. -/
theorem claim_C9_with_overrides_frame :
    ∀ (g : Genome) (u : Option String) (a : Option Meta)
      (p : Option (List (ℚ × String))) (f : Option ℚ),
      (u = none → (g.withOverrides u a p f).uuid = g.uuid)
      ∧ (a = none → (g.withOverrides u a p f).alleles = g.alleles)
      ∧ (p = none → (g.withOverrides u a p f).parents = g.parents)
      ∧ (f = none → (g.withOverrides u a p f).fitness = g.fitness)
      ∧ ((g.withOverrides u a p f).fitness = none → g.fitness = none)
      ∧ ((g.withOverrides u a p f).parents = none → g.parents = none)
      ∧ (∀ val newU fresh, (g.setFitness val newU fresh).parents = g.parents
          ∧ (g.setFitness val newU fresh).alleles = g.alleles)
      ∧ (∀ fresh al, (g.withAlleles fresh al).parents = g.parents
          ∧ (g.withAlleles fresh al).fitness = g.fitness)
      ∧ (∀ fresh ps, (g.withAncestry fresh ps).fitness = g.fitness
          ∧ (g.withAncestry fresh ps).alleles = g.alleles) := by
  intro g u a p f
  refine ⟨?_, ?_, ?_, ?_, ?_, ?_, ?_, ?_, ?_⟩
  · intro h; subst h; rfl
  · intro h; subst h; rfl
  · intro h; subst h; simp [Genome.withOverrides]
  · intro h; subst h; simp [Genome.withOverrides]
  · cases f with
    | none => simp [Genome.withOverrides]
    | some x => simp [Genome.withOverrides]
  · cases p with
    | none => simp [Genome.withOverrides]
    | some x => simp [Genome.withOverrides]
  · intro val newU fresh
    cases newU <;> simp [Genome.setFitness, Genome.withOverrides]
  · intro fresh al
    simp [Genome.withAlleles, Genome.withOverrides]
  · intro fresh ps
    simp [Genome.withAncestry, Genome.withOverrides]

/-- Witness for C9 at a concrete genome with fitness and parents set. -/
theorem claim_C9_with_overrides_frame_witness :
    ((Genome.mk "g" [] (some [(1, "p")]) (some 2)).withOverrides none none none none).fitness
        = some 2
    ∧ ((Genome.mk "g" [] (some [(1, "p")]) (some 2)).withAncestry "h" [(1, "q")]).fitness
        = some 2 := by
  obtain ⟨_, _, _, h4, _, _, _, _, h9⟩ :=
    claim_C9_with_overrides_frame (Genome.mk "g" [] (some [(1, "p")]) (some 2))
      none none none none
  exact ⟨h4 rfl, (h9 "h" [(1, "q")]).1⟩

theorem topNClipped_getElem? {n : ℕ} {a : List (ℚ × String)} {i : ℕ} (hi : i < a.length) :
    (topNClipped n a)[i]?
      = some (if (topNTopIdx n a).contains i then a[i].1 else 0, a[i].2) := by
  simp [topNClipped, List.getElem?_map, List.getElem?_enum, List.getElem?_eq_getElem hi]

/-- C10: TopN clips to the retained top n entries; when the retained
probabilities sum to zero the clipped all-zero declaration is returned as
is (no division happens), and when the sum is positive every retained
probability is divided by it while every other entry is exactly zero. -/
theorem claim_C10_topn_renormalize :
    ∀ (n : ℕ) (a : List (ℚ × String)),
      (((topNClipped n a).map Prod.fst).sum = 0 → topNSelect n a = topNClipped n a)
      ∧ (0 < ((topNClipped n a).map Prod.fst).sum →
          ∀ i, i < a.length →
            ∃ p u, a[i]? = some (p, u)
              ∧ ((topNTopIdx n a).contains i = true →
                  (topNSelect n a)[i]?
                    = some (p / ((topNClipped n a).map Prod.fst).sum, u))
              ∧ ((topNTopIdx n a).contains i = false →
                  (topNSelect n a)[i]? = some (0, u))) := by
  intro n a
  constructor
  · intro h
    simp only [topNSelect, h]
    simp
  · intro h i hi
    have hne : ((topNClipped n a).map Prod.fst).sum ≠ 0 := ne_of_gt h
    refine ⟨a[i].1, a[i].2, ?_, ?_, ?_⟩
    · rw [List.getElem?_eq_getElem hi]
    · intro hc
      simp only [topNSelect, if_neg hne, List.getElem?_map, topNClipped_getElem? hi, hc]
      simp
    · intro hc
      simp only [topNSelect, if_neg hne, List.getElem?_map, topNClipped_getElem? hi, hc]
      simp [zero_div]

/-- Witness for C10: a zero-sum clipped declaration returned unchanged,
and a positive-sum declaration renormalized with the excluded entry at
exactly zero. -/
theorem claim_C10_topn_renormalize_witness :
    topNSelect 1 [(0, "x"), (0, "y")] = topNClipped 1 [(0, "x"), (0, "y")]
    ∧ (topNSelect 1 [(1/2, "x"), (1/4, "y")])[1]? = some (0, "y") := by
  have hz : ((topNClipped 1 [((0 : ℚ), "x"), (0, "y")]).map Prod.fst).sum = 0 := by
    norm_num [topNClipped, topNTopIdx, sortByLe, insertByLe, topIdxLe, List.enum,
      List.enumFrom, List.range, List.range.loop]
  have hp : 0 < ((topNClipped 1 [((1 : ℚ)/2, "x"), (1/4, "y")]).map Prod.fst).sum := by
    norm_num [topNClipped, topNTopIdx, sortByLe, insertByLe, topIdxLe, List.enum,
      List.enumFrom, List.range, List.range.loop]
  have hc : (topNTopIdx 1 [((1 : ℚ)/2, "x"), (1/4, "y")]).contains 1 = false := by
    norm_num [topNTopIdx, sortByLe, insertByLe, topIdxLe, List.range, List.range.loop]
  constructor
  · exact (claim_C10_topn_renormalize 1 [(0, "x"), (0, "y")]).1 hz
  · obtain ⟨p, u, ha, _, hf⟩ :=
      (claim_C10_topn_renormalize 1 [(1/2, "x"), (1/4, "y")]).2 hp 1 (by norm_num)
    have hu : u = "y" := by
      simp only [List.getElem?_cons_succ, List.getElem?_cons_zero, Option.some.injEq,
        Prod.mk.injEq] at ha
      exact ha.2.symm
    rw [hf hc, hu]

theorem minByFitness_unfold (g0 g : Genome) (rest : List Genome) :
    minByFitness g0 (g :: rest)
      = minByFitness (if g.fitnessOf < g0.fitnessOf then g else g0) rest := by
  simp [minByFitness]

theorem minByFitness_mem : ∀ (gs : List Genome) (g0 : Genome), minByFitness g0 gs ∈ g0 :: gs := by
  intro gs
  induction gs with
  | nil => intro g0; simp [minByFitness]
  | cons g rest ih =>
      intro g0
      rw [minByFitness_unfold]
      rcases List.mem_cons.mp (ih (if g.fitnessOf < g0.fitnessOf then g else g0)) with h | h
      · rw [h]
        by_cases hlt : g.fitnessOf < g0.fitnessOf <;> simp [hlt]
      · simp [h]

theorem minByFitness_le : ∀ (gs : List Genome) (g0 x : Genome), x ∈ g0 :: gs →
    (minByFitness g0 gs).fitnessOf ≤ x.fitnessOf := by
  intro gs
  induction gs with
  | nil =>
      intro g0 x hx
      simp only [List.mem_cons, List.not_mem_nil, or_false] at hx
      subst hx
      simp [minByFitness]
  | cons g rest ih =>
      intro g0 x hx
      rw [minByFitness_unfold]
      have hacc0 : (if g.fitnessOf < g0.fitnessOf then g else g0).fitnessOf ≤ g0.fitnessOf := by
        by_cases hlt : g.fitnessOf < g0.fitnessOf <;> simp [hlt]
        exact le_of_lt hlt
      have haccg : (if g.fitnessOf < g0.fitnessOf then g else g0).fitnessOf ≤ g.fitnessOf := by
        by_cases hlt : g.fitnessOf < g0.fitnessOf <;> simp [hlt]
        exact le_of_not_lt hlt
      have hle0 : (minByFitness (if g.fitnessOf < g0.fitnessOf then g else g0) rest).fitnessOf
          ≤ (if g.fitnessOf < g0.fitnessOf then g else g0).fitnessOf :=
        ih _ _ (List.mem_cons_self _ _)
      rcases List.mem_cons.mp hx with h | h
      · subst h
        exact le_trans hle0 hacc0
      rcases List.mem_cons.mp h with h2 | h2
      · subst h2
        exact le_trans hle0 haccg
      · exact ih _ x (List.mem_cons_of_mem _ h2)

theorem tournamentStep_apply (size : ℕ) (choose : ℕ → Genome) (cnt : String → ℕ)
    (r : ℕ) (u : String) :
    tournamentStep size choose cnt r u
      = if (roundWinner size choose r).map Genome.uuid = some u then cnt u + 1 else cnt u := by
  rcases htour : tournamentOf size choose r with _ | ⟨g, gs⟩
  · simp [tournamentStep, roundWinner, htour]
  · simp only [tournamentStep, roundWinner, htour]
    by_cases hw : u = (minByFitness g gs).uuid
    · simp [hw]
    · simp [hw, Ne.symm hw]

theorem tournamentCounts_eq (size : ℕ) (choose : ℕ → Genome) :
    ∀ (rs : List ℕ) (cnt : String → ℕ) (u : String),
      rs.foldl (tournamentStep size choose) cnt u
        = cnt u + (rs.filter
            (fun r => (roundWinner size choose r).map Genome.uuid = some u)).length := by
  intro rs
  induction rs with
  | nil => intro cnt u; simp
  | cons r rest ih =>
      intro cnt u
      rw [List.foldl_cons, ih, tournamentStep_apply]
      by_cases h : (roundWinner size choose r).map Genome.uuid = some u
      · simp only [h, if_pos rfl, List.filter_cons, decide_eq_true h]
        simp
        omega
      · simp only [List.filter_cons]
        rw [if_neg h]
        simp [h]

def tourG0 : Genome := ⟨"u0", [], none, some 1⟩

def tourG1 : Genome := ⟨"u1", [], none, some 2⟩

def tourG2 : Genome := ⟨"u2", [], none, some 3⟩

def tourPop : List Genome := [tourG0, tourG1, tourG2]

/-- The fixed sample sequence of the concrete scenario of C6: rounds
sample the index pairs (0,1), (0,2), (0,1), (1,2). -/
def tourChoose (k : ℕ) : Genome :=
  [tourG0, tourG1, tourG0, tourG2, tourG0, tourG1, tourG1, tourG2].getD k tourG0

/-- C6: tournament selection assigns each genome the probability
(tournaments won) / (number of tournaments), the winner of each
tournament being the sampled genome of lowest fitness (first on ties);
with size 2, 4 rounds, fitnesses 1, 2, 3 and sampled pairs (0,1), (0,2),
(0,1), (1,2) the probabilities are 3/4, 1/4, 0. -/
theorem claim_C6_tournament :
    (∀ (size rounds : ℕ) (population : List Genome) (choose : ℕ → Genome),
      tournamentSelect size rounds population choose
        = population.map (fun g =>
            ((winCount size rounds choose g.uuid : ℚ) / (rounds : ℚ), g.uuid)))
    ∧ (∀ (size : ℕ) (choose : ℕ → Genome) (r : ℕ) (g0 : Genome) (gs : List Genome),
        tournamentOf size choose r = g0 :: gs →
        roundWinner size choose r = some (minByFitness g0 gs)
          ∧ minByFitness g0 gs ∈ g0 :: gs
          ∧ ∀ x ∈ g0 :: gs, (minByFitness g0 gs).fitnessOf ≤ x.fitnessOf)
    ∧ tournamentSelect 2 4 tourPop tourChoose
        = [(3/4, "u0"), (1/4, "u1"), (0, "u2")] := by
  have hgen : ∀ (size rounds : ℕ) (population : List Genome) (choose : ℕ → Genome),
      tournamentSelect size rounds population choose
        = population.map (fun g =>
            ((winCount size rounds choose g.uuid : ℚ) / (rounds : ℚ), g.uuid)) := by
    intro size rounds population choose
    simp only [tournamentSelect]
    refine List.map_congr_left ?_
    intro g _
    rw [tournamentCounts_eq size choose (List.range rounds) (fun _ => 0) g.uuid]
    simp [winCount]
  refine ⟨hgen, ?_, ?_⟩
  · intro size choose r g0 gs h
    refine ⟨?_, minByFitness_mem gs g0, fun x hx => minByFitness_le gs g0 x hx⟩
    simp [roundWinner, h]
  · rw [hgen]
    have h0 : winCount 2 4 tourChoose "u0" = 3 := by decide
    have h1 : winCount 2 4 tourChoose "u1" = 1 := by decide
    have h2 : winCount 2 4 tourChoose "u2" = 0 := by decide
    simp only [tourPop, List.map_cons, List.map_nil, tourG0, tourG1, tourG2, h0, h1, h2]
    norm_num

/-- Witness for C6: the winner characterization applied to the first
round of the concrete scenario. -/
theorem claim_C6_tournament_witness :
    roundWinner 2 tourChoose 0 = some (minByFitness tourG0 [tourG1])
    ∧ minByFitness tourG0 [tourG1] ∈ [tourG0, tourG1]
    ∧ (minByFitness tourG0 [tourG1]).fitnessOf ≤ tourG1.fitnessOf := by
  obtain ⟨hw, hmem, hle⟩ :=
    claim_C6_tournament.2.1 2 tourChoose 0 tourG0 [tourG1] (by decide)
  exact ⟨hw, hmem, hle tourG1 (by simp)⟩

theorem synthesize_genomes_ok {fresh : String} {main : Genome} {pop : List Genome}
    {handler : Node → List Node → Node} {inc : Node → Bool} {g : Genome}
    (h : synthesize_genomes fresh main pop handler inc = .ok g) :
    g.uuid = fresh ∧ g.parents = none ∧ g.fitness = none := by
  match pop with
  | [] => simp [synthesize_genomes] at h
  | g0 :: grest =>
      simp only [synthesize_genomes] at h
      split at h
      · exact absurd h (by simp)
      · split at h
        · exact absurd h (by simp)
        · split at h
          · exact absurd h (by simp)
          · split at h
            · exact absurd h (by simp)
            · cases h
              exact ⟨rfl, rfl, rfl⟩

theorem applyAncestryStrategy_ok {select : Genome → List Genome → List (ℚ × String)}
    {myGenome : Genome} {population : List Genome} {a : List (ℚ × String)}
    (h : applyAncestryStrategy select myGenome population = .ok a) :
    population.all (fun g => g.fitness.isSome) = true
      ∧ population.contains myGenome = true
      ∧ a = select myGenome population
      ∧ a.length = population.length := by
  simp only [applyAncestryStrategy] at h
  by_cases h1 : population.all (fun g => g.fitness.isSome) = false
  · rw [if_pos h1] at h
    exact absurd h (by simp)
  · rw [if_neg h1] at h
    by_cases h2 : population.contains myGenome = false
    · rw [if_pos h2] at h
      exact absurd h (by simp)
    · rw [if_neg h2] at h
      by_cases h3 : (select myGenome population).length ≠ population.length
      · rw [if_pos h3] at h
        exact absurd h (by simp)
      · rw [if_neg h3] at h
        cases h
        have hall : population.all (fun g => g.fitness.isSome) = true := by
          cases hx : population.all (fun g => g.fitness.isSome) with
          | false => exact absurd hx h1
          | true => rfl
        have hcon : population.contains myGenome = true := by
          cases hx : population.contains myGenome with
          | false => exact absurd hx h2
          | true => rfl
        exact ⟨hall, hcon, rfl, not_ne_iff.mp h3⟩

/-- C2: for a population with fitness set, the orchestrator runs exactly
select, then crossbreed, then mutate, then ancestry attachment, and the
offspring carries the third fresh identifier, no fitness, and exactly the
ancestry declaration of the selection step as parents.  Spec-modelled
parts: the can_mutate / can_crossbreed predicate classes and the
predicate form of the tree synthesis (absent from src), with handler
context passed by closure. -/
theorem claim_C2_orchestrator_contract :
    ∀ (select : Genome → List Genome → List (ℚ × String))
      (crossHandler mutHandler : Node → List Node → List (ℚ × String) → Node)
      (myGenome : Genome) (population : List Genome) (u1 u2 u3 : String)
      (offspring : Genome),
      orchestratorCall select crossHandler mutHandler myGenome population u1 u2 u3
          = .ok offspring →
      ∃ a x m,
        applyAncestryStrategy select myGenome population = .ok a
        ∧ a = select myGenome population
        ∧ applyCrossbreeding u1 crossHandler myGenome population a = .ok x
        ∧ applyMutation u2 mutHandler x population a = .ok m
        ∧ offspring = m.withAncestry u3 a
        ∧ offspring.uuid = u3
        ∧ offspring.fitness = none
        ∧ offspring.parents = some a
        ∧ x.uuid = u1 ∧ x.fitness = none ∧ x.parents = none
        ∧ m.uuid = u2 ∧ m.fitness = none ∧ m.parents = none
        ∧ population.all (fun g => g.fitness.isSome) = true
        ∧ (u3 ∉ population.map Genome.uuid → offspring.uuid ∉ population.map Genome.uuid) := by
  intro select crossHandler mutHandler myGenome population u1 u2 u3 offspring h
  simp only [orchestratorCall] at h
  split at h
  · exact absurd h (by simp)
  · rename_i a h1
    split at h
    · exact absurd h (by simp)
    · rename_i x h2
      split at h
      · exact absurd h (by simp)
      · rename_i m h3
        cases h
        obtain ⟨hfit, _, hsel, _⟩ := applyAncestryStrategy_ok h1
        obtain ⟨hxu, hxp, hxf⟩ := synthesize_genomes_ok h2
        obtain ⟨hmu, hmp, hmf⟩ := synthesize_genomes_ok h3
        refine ⟨a, x, m, h1, hsel, h2, h3, rfl, rfl, ?_, ?_, hxu, hxf, hxp,
          hmu, hmf, hmp, hfit, ?_⟩
        · simp [Genome.withAncestry, Genome.withOverrides, hmf]
        · simp [Genome.withAncestry, Genome.withOverrides]
        · intro hu
          simpa [Genome.withAncestry, Genome.withOverrides] using hu

def lrAllele : Node := .allele (.floatV 1 none none) true true []

def c2Genome : Genome := ⟨"p0", [("lr", lrAllele)], none, some 1⟩

def c2Select : Genome → List Genome → List (ℚ × String) :=
  fun _ pop => pop.map (fun g => (1, g.uuid))

def c2Handler : Node → List Node → List (ℚ × String) → Node := fun t _ _ => t

/-- Witness for C2: one full reproduction over a singleton population with
identity handlers. -/
theorem claim_C2_orchestrator_contract_witness :
    orchestratorCall c2Select c2Handler c2Handler c2Genome [c2Genome] "a" "b" "c"
        = .ok (Genome.mk "c" [("lr", lrAllele)] (some [(1, "p0")]) none)
    ∧ (Genome.mk "c" [("lr", lrAllele)] (some [(1, "p0")]) none).fitness = none
    ∧ (Genome.mk "c" [("lr", lrAllele)] (some [(1, "p0")]) none).parents
        = some [(1, "p0")] := by
  have hok : orchestratorCall c2Select c2Handler c2Handler c2Genome [c2Genome] "a" "b" "c"
      = .ok (Genome.mk "c" [("lr", lrAllele)] (some [(1, "p0")]) none) := by
    simp +decide [orchestratorCall, applyAncestryStrategy, applyCrossbreeding, applyMutation,
      synthesize_genomes, synthAllAlleles, synthesizeAlleleTreesWith, synthImpl, synthKeys,
      collectKeys, collectKeysAux, sortKeys, insertSorted, metaKeys, keySetEq, lookupMeta,
      validateParallelTypes, validateSchemasMatch, Node.pyclass, Domain.pyEq, AVariant.domain,
      Node.withMetadata, Node.flatten, Node.unflatten, mkAllele, updateMeta, clampQ,
      CanCrossbreedFilter, CanMutateFilter, c2Select, c2Handler, c2Genome, lrAllele,
      Genome.withAncestry, Genome.withOverrides, List.findIdx?, List.mapM, List.mapM.loop,
      flattenEntry, Except.bind, Except.pure, Except.map, Except.instMonad,
      List.getElem?_cons_zero, List.getElem?_cons_succ]
  obtain ⟨a, x, m, _, _, _, _, _, _, hf, hp, _⟩ :=
    claim_C2_orchestrator_contract c2Select c2Handler c2Handler c2Genome [c2Genome]
      "a" "b" "c" (Genome.mk "c" [("lr", lrAllele)] (some [(1, "p0")]) none) hok
  exact ⟨hok, hf, by simp⟩

theorem clampQ_idem (v : ℚ) (dmin dmax : Option ℚ) :
    clampQ (clampQ v dmin dmax) dmin dmax = clampQ v dmin dmax := by
  cases dmin <;> cases dmax <;>
    simp only [clampQ, max_def, min_def] <;> split_ifs <;> linarith

/-- A well formed variant passes its constructor unchanged. -/
theorem mkAllele_wf {var : AVariant} (h : wfVariant var = true) (cm cc : Bool) (md : Meta) :
    mkAllele var cm cc md = .ok (.allele var cm cc md) := by
  cases var with
  | floatV v dmin dmax =>
      simp only [wfVariant, beq_iff_eq] at h
      simp [mkAllele, h]
  | intV r dmin dmax =>
      simp only [wfVariant, beq_iff_eq] at h
      cases dmin <;> cases dmax <;> simp_all [mkAllele]
  | logV v dmin dmax =>
      cases dmin with
      | none => simp [wfVariant] at h
      | some m =>
          simp only [wfVariant, Bool.and_eq_true, decide_eq_true_eq, beq_iff_eq] at h
          simp [mkAllele, not_le.mpr h.1, h.2]
  | boolV b => rfl
  | stringV s dom =>
      simp only [wfVariant] at h
      have hs : s ∈ dom := by simpa using h
      simp [mkAllele, hs]

theorem svalBoundQ_optQ (d : Option ℚ) : svalBoundQ (some (optQToS d)) = .ok d := by
  cases d <;> rfl

theorem svalBoundZ_optZ (d : Option ℤ) : svalBoundZ (some (optZToS d)) = .ok d := by
  cases d <;> rfl

theorem mapM_sS_loop (dom acc : List String) :
    List.mapM.loop (fun it =>
      match it with
      | SVal.sS x => some x
      | _ => none) (dom.map SVal.sS) acc = some (acc.reverse ++ dom) := by
  induction dom generalizing acc with
  | nil => simp [List.mapM.loop]
  | cons d ds ih => simp [List.mapM.loop, ih]

theorem mapM_sS (dom : List String) :
    (dom.map SVal.sS).mapM (fun it =>
      match it with
      | SVal.sS x => some x
      | _ => none) = some dom := by
  simp [List.mapM, mapM_sS_loop]

mutual

theorem rtNode : ∀ (var : AVariant) (cm cc : Bool) (md : Meta),
    wfVariant var = true → wfMeta md = true →
    deserializeNode (serializeNode (.allele var cm cc md)) = .ok (.allele var cm cc md)
  | var, cm, cc, md, hv, hm => by
      have hmd := rtMeta md hm
      cases var with
      | floatV v dmin dmax =>
          simp [serializeNode, deserializeNode, AVariant.className, AVariant.serializeFields,
            lookupS, hmd, deserializeVariant, svalBoundQ_optQ, svalNum, mkAllele_wf hv]
      | intV r dmin dmax =>
          simp [serializeNode, deserializeNode, AVariant.className, AVariant.serializeFields,
            lookupS, hmd, deserializeVariant, svalBoundZ_optZ, svalNum, mkAllele_wf hv]
      | logV v dmin dmax =>
          simp [serializeNode, deserializeNode, AVariant.className, AVariant.serializeFields,
            lookupS, hmd, deserializeVariant, svalBoundQ_optQ, svalNum, mkAllele_wf hv]
      | boolV b =>
          simp [serializeNode, deserializeNode, AVariant.className, AVariant.serializeFields,
            lookupS, hmd, deserializeVariant, mkAllele_wf hv]
      | stringV s dom =>
          simp [serializeNode, deserializeNode, AVariant.className, AVariant.serializeFields,
            lookupS, hmd, deserializeVariant, mkAllele_wf hv, mapM_sS_loop]

theorem rtMeta : ∀ (md : Meta), wfMeta md = true → deserializeMeta (serializeMeta md) = .ok md
  | [], _ => by simp [serializeMeta, deserializeMeta]
  | (k, n) :: rest, h => by
      have h1 : wfNode n = true ∧ wfMeta rest = true := by
        simpa [wfMeta] using h
      have hrest := rtMeta rest h1.2
      cases n with
      | raw v =>
          cases v <;> simp [serializeMeta, serializeNode, deserializeMeta, rawToS, hrest]
      | allele var cm cc md2 =>
          have hv : wfVariant var = true ∧ wfMeta md2 = true := by
            simpa [wfNode] using h1.1
          have hn := rtNode var cm cc md2 hv.1 hv.2
          simp only [serializeMeta, serializeNode, List.cons_append, List.nil_append] at hn ⊢
          simp [deserializeMeta, lookupS, hn, hrest]

end

theorem rtAlleles : ∀ (al : Meta), wfAlleles al = true →
    deserializeAlleles (serializeMeta al) = .ok al := by
  intro al
  induction al with
  | nil => intro _; simp [serializeMeta, deserializeAlleles]
  | cons p rest ih =>
      intro h
      obtain ⟨k, n⟩ := p
      simp only [wfAlleles, Bool.and_eq_true] at h
      obtain ⟨⟨hA, hW⟩, hrest⟩ := h
      cases n with
      | raw v => simp [Node.isAllele] at hA
      | allele var cm cc md2 =>
          have hv : wfVariant var = true ∧ wfMeta md2 = true := by
            simpa [wfNode] using hW
          have hn := rtNode var cm cc md2 hv.1 hv.2
          simp only [serializeMeta, serializeNode, List.cons_append, List.nil_append] at hn ⊢
          simp [deserializeAlleles, hn, ih hrest]

theorem parseParents_loop (ps acc : List (ℚ × String)) :
    List.mapM.loop parseParentPair (ps.map (fun p => SVal.sList [SVal.sF p.1, SVal.sS p.2])) acc
      = .ok (acc.reverse ++ ps) := by
  induction ps generalizing acc with
  | nil => simp [List.mapM.loop, pure, Except.pure]
  | cons p rest ih =>
      simp [List.mapM.loop, parseParentPair, ih, bind, Except.bind]

/-- C8: serializing and deserializing a genome reproduces the identifier,
the fitness, the ancestry list and every allele (values, domains, flags,
recursively through the metadata trees); likewise for a single allele
tree. -/
theorem claim_C8_serialization_roundtrip :
    (∀ g : Genome, wfGenome g = true → Genome.deserialize (Genome.serialize g) = .ok g)
    ∧ (∀ (var : AVariant) (cm cc : Bool) (md : Meta),
        wfVariant var = true → wfMeta md = true →
        deserializeNode (serializeNode (.allele var cm cc md)) = .ok (.allele var cm cc md)) := by
  constructor
  · intro g hg
    obtain ⟨u, al, ps, f⟩ := g
    have hal : deserializeAlleles (serializeMeta al) = .ok al := rtAlleles al hg
    cases ps with
    | none =>
        cases f with
        | none => simp [Genome.serialize, Genome.deserialize, lookupS, hal, parseParents]
        | some x => simp [Genome.serialize, Genome.deserialize, lookupS, hal, parseParents]
    | some l =>
        cases f with
        | none =>
            simp [Genome.serialize, Genome.deserialize, lookupS, hal, parseParents,
              List.mapM, parseParents_loop]
        | some x =>
            simp [Genome.serialize, Genome.deserialize, lookupS, hal, parseParents,
              List.mapM, parseParents_loop]
  · exact rtNode

def rtExample : Genome :=
  ⟨"gid",
   [("lr", .allele (.floatV (1/2) (some 0) (some 1)) true false
      [("std", .allele (.floatV 2 none none) true true []), ("note", .raw (.rs "x"))]),
    ("n", .allele (.intV (7/2) (some 0) (some 10)) false true [])],
   some [(1/4, "par1"), (3/4, "par2")], some (3/2)⟩

/-- Witness for C8 at a nested concrete genome. -/
theorem claim_C8_serialization_roundtrip_witness :
    Genome.deserialize (Genome.serialize rtExample) = .ok rtExample := by
  have hwf : wfGenome rtExample = true := by
    norm_num [wfGenome, rtExample, wfAlleles, wfNode, wfMeta, wfVariant, clampQ,
      Node.isAllele]
  exact claim_C8_serialization_roundtrip.1 rtExample hwf

/-- Value part of flattenEntry. -/
def flattenV : Node → Node
  | .raw v => .raw v
  | .allele var _ _ _ => .raw var.value

theorem flattenEntry_eq (p : String × Node) : flattenEntry p = (p.1, flattenV p.2) := by
  obtain ⟨k, n⟩ := p
  cases n <;> rfl

theorem lookupMeta_map_flattenV (md : Meta) (k : String) :
    lookupMeta k (md.map flattenEntry) = (lookupMeta k md).map flattenV := by
  induction md with
  | nil => rfl
  | cons p rest ih =>
      obtain ⟨k', v⟩ := p
      by_cases hk : k' = k
      · cases v <;> simp [lookupMeta, flattenEntry, flattenV, hk]
      · cases v <;> simp [lookupMeta, flattenEntry, flattenV, hk, ih]

theorem lookupMeta_self_of_nodup : ∀ (md : Meta), (metaKeys md).Nodup →
    ∀ k v, (k, v) ∈ md → lookupMeta k md = some v := by
  intro md
  induction md with
  | nil => intro _ k v h; simp at h
  | cons p rest ih =>
      intro hnd k v h
      obtain ⟨k', v'⟩ := p
      simp only [metaKeys, List.map_cons, List.nodup_cons] at hnd
      rcases List.mem_cons.mp h with h1 | h1
      · obtain ⟨hk, hv⟩ := Prod.mk.injEq .. ▸ h1
        cases h1
        simp [lookupMeta]
      · have hk : k' ≠ k := by
          intro he
          subst he
          exact hnd.1 (by simpa [metaKeys] using List.mem_map_of_mem Prod.fst h1)
        simp only [lookupMeta, if_neg hk]
        exact ih hnd.2 k v h1

theorem mem_metaKeys_lookup : ∀ (md : Meta) (k : String), k ∈ metaKeys md →
    ∃ v, lookupMeta k md = some v := by
  intro md
  induction md with
  | nil => intro k h; simp [metaKeys] at h
  | cons p rest ih =>
      intro k h
      obtain ⟨k', v'⟩ := p
      by_cases hk : k' = k
      · exact ⟨v', by simp [lookupMeta, hk]⟩
      · simp only [metaKeys, List.map_cons, List.mem_cons] at h
        rcases h with h | h
        · exact absurd h.symm hk
        · simpa [lookupMeta, hk] using ih k h

theorem lookupMeta_mem_keys {md : Meta} {k : String} {v : Node}
    (h : lookupMeta k md = some v) : k ∈ metaKeys md ∧ (k, v) ∈ md := by
  induction md with
  | nil => simp [lookupMeta] at h
  | cons p rest ih =>
      obtain ⟨k', v'⟩ := p
      by_cases hk : k' = k
      · simp only [lookupMeta, if_pos hk, Option.some.injEq] at h
        subst hk
        subst h
        simp [metaKeys]
      · simp only [lookupMeta, if_neg hk] at h
        obtain ⟨h1, h2⟩ := ih h
        exact ⟨by simp [metaKeys] at h1 ⊢; exact Or.inr h1, List.mem_cons_of_mem _ h2⟩

theorem updateMeta_flatten (md : Meta) (hnd : (metaKeys md).Nodup) :
    updateMeta md (md.map flattenEntry) = md.map flattenEntry := by
  simp only [updateMeta]
  have h1 : md.map (fun p =>
      match lookupMeta p.1 (md.map flattenEntry) with
      | some w => (p.1, w)
      | none => p) = md.map flattenEntry := by
    refine List.map_congr_left ?_
    intro p hp
    rw [lookupMeta_map_flattenV, lookupMeta_self_of_nodup md hnd p.1 p.2 hp]
    simp [flattenEntry_eq]
  have h2 : (md.map flattenEntry).filter (fun p => (lookupMeta p.1 md).isNone) = [] := by
    rw [List.filter_eq_nil_iff]
    intro p hp
    obtain ⟨q, hq, rfl⟩ := List.mem_map.mp hp
    rw [flattenEntry_eq]
    simp only [decide_eq_true_eq]
    rw [lookupMeta_self_of_nodup md hnd q.1 q.2 hq]
    simp
  rw [h1, h2, List.append_nil]

/-- Flatten of a well formed, dict shaped allele never errors and equals
the direct one-level flattening. -/
theorem flatten_wf {var : AVariant} {cm cc : Bool} {md : Meta}
    (hv : wfVariant var = true) (hnd : (metaKeys md).Nodup) :
    Node.flatten (.allele var cm cc md) = .ok (.allele var cm cc (md.map flattenEntry)) := by
  simp only [Node.flatten, Node.withMetadata]
  rw [updateMeta_flatten md hnd]
  exact mkAllele_wf hv cm cc (md.map flattenEntry)

theorem insertSorted_mem {a s : String} : ∀ {l : List String},
    a ∈ insertSorted s l ↔ a = s ∨ a ∈ l := by
  intro l
  induction l with
  | nil => simp [insertSorted]
  | cons k ks ih =>
      by_cases h : s ≤ k
      · simp [insertSorted, h]
      · simp only [insertSorted, if_neg h, List.mem_cons, ih]
        tauto

theorem sortKeys_mem {a : String} : ∀ {l : List String}, a ∈ sortKeys l ↔ a ∈ l := by
  intro l
  induction l with
  | nil => simp [sortKeys]
  | cons k ks ih =>
      simp only [sortKeys, List.foldr_cons] at ih ⊢
      rw [insertSorted_mem, ih, List.mem_cons]

theorem wfMeta_lookup : ∀ {md : Meta} {k : String} {v : Node},
    wfMeta md = true → lookupMeta k md = some v → wfNode v = true := by
  intro md
  induction md with
  | nil => intro k v _ h; simp [lookupMeta] at h
  | cons p rest ih =>
      intro k v hw h
      obtain ⟨k', v'⟩ := p
      simp only [wfMeta, Bool.and_eq_true] at hw
      by_cases hk : k' = k
      · simp only [lookupMeta, if_pos hk, Option.some.injEq] at h
        subst h
        exact hw.1
      · simp only [lookupMeta, if_neg hk] at h
        exact ih hw.2 h

theorem dictMeta_lookup : ∀ {md : Meta} {k : String} {v : Node},
    dictMeta md = true → lookupMeta k md = some v → dictNode v = true := by
  intro md
  induction md with
  | nil => intro k v _ h; simp [lookupMeta] at h
  | cons p rest ih =>
      intro k v hw h
      obtain ⟨k', v'⟩ := p
      simp only [dictMeta, Bool.and_eq_true] at hw
      by_cases hk : k' = k
      · simp only [lookupMeta, if_pos hk, Option.some.injEq] at h
        subst h
        exact hw.1
      · simp only [lookupMeta, if_neg hk] at h
        exact ih hw.2 h

theorem walkKeys_cons_eq (n0 : Node) (rest : List Node) (k : String) (ks : List String)
    (handler : List Node → Option α) (inc : Node → Bool) :
    walkKeys n0 rest (k :: ks) handler inc =
      match lookupNode k n0 with
      | .error e => .error e
      | .ok (.raw _) => walkKeys n0 rest ks handler inc
      | .ok (.allele _ _ _ _) =>
          match lookupAll k (n0 :: rest) with
          | .error e => .error e
          | .ok [] => .error .indexErr
          | .ok (s0 :: srest) =>
              match walkTrees s0 srest handler inc with
              | .error e => .error e
              | .ok sub =>
                  match walkKeys n0 rest ks handler inc with
                  | .error e => .error e
                  | .ok more => .ok (sub ++ more) := by
  simp only [walkKeys]
  generalize lookupNode k n0 = x
  rcases x with e | fv
  · rfl
  · rcases fv with v | ⟨a, b, c, d⟩
    · rfl
    · generalize lookupAll k (n0 :: rest) = y
      rcases y with e2 | subs
      · rfl
      · rcases subs with _ | ⟨s0, srest⟩
        · rfl
        · rfl

theorem specWalkKeys_cons_eq (md : Meta) (k : String) (ks : List String)
    (handler : List Node → Option α) (inc : Node → Bool) :
    specWalkKeys md (k :: ks) handler inc =
      (match lookupMeta k md with
       | some (.allele v m c md2) => specWalkNode (.allele v m c md2) handler inc
       | _ => []) ++ specWalkKeys md ks handler inc := by
  simp only [specWalkKeys]
  generalize lookupMeta k md = x
  rcases x with _ | v
  · rfl
  · rcases v with w | ⟨a, b, c, d⟩ <;> rfl

theorem validateParallelTypes_single (n : Node) : validateParallelTypes [n] = .ok () := by
  simp [validateParallelTypes]

theorem collectKeys_single (var : AVariant) (cm cc : Bool) (md : Meta) :
    collectKeys [.allele var cm cc md] = .ok (sortKeys (metaKeys md).dedup) := by
  simp [collectKeys, collectKeysAux]

mutual

theorem walk_single_eq (α : Type) : ∀ (var : AVariant) (cm cc : Bool) (md : Meta)
    (handler : List Node → Option α) (inc : Node → Bool),
    wfVariant var = true → wfMeta md = true →
    (metaKeys md).Nodup → dictMeta md = true →
    walkTrees (.allele var cm cc md) [] handler inc
      = .ok (specWalkNode (.allele var cm cc md) handler inc)
  | var, cm, cc, md, handler, inc, hv, hm, hnd, hdm => by
      have hkeys : ∀ k ∈ sortKeys (metaKeys md).dedup, k ∈ metaKeys md := by
        intro k hk
        exact List.mem_dedup.mp (sortKeys_mem.mp hk)
      have hwk := walkKeys_single_eq α var cm cc md (sortKeys (metaKeys md).dedup)
        handler inc hkeys hm hdm
      have hfl := @flatten_wf var cm cc md hv hnd
      by_cases hin : inc (.allele var cm cc md)
      · simp only [walkTrees, validateParallelTypes_single, collectKeys_single, hwk,
          hin, if_pos, List.mapM, List.mapM.loop, hfl, specWalkNode, specFlatten,
          bind, Except.bind, pure, Except.pure]
        cases hh : handler [Node.allele var cm cc (md.map flattenEntry)] <;>
          simp [hh, hin]
      · simp only [walkTrees, validateParallelTypes_single, collectKeys_single, hwk,
          hin, if_neg, specWalkNode]
        simp [hin]
termination_by _ _ _ md _ _ => (sizeOf md, 1, 0)
decreasing_by
  apply Prod.Lex.right
  apply Prod.Lex.left
  omega

theorem walkKeys_single_eq (α : Type) : ∀ (var : AVariant) (cm cc : Bool) (md : Meta)
    (keys : List String) (handler : List Node → Option α) (inc : Node → Bool),
    (∀ k ∈ keys, k ∈ metaKeys md) →
    wfMeta md = true → dictMeta md = true →
    walkKeys (.allele var cm cc md) [] keys handler inc
      = .ok (specWalkKeys md keys handler inc)
  | var, cm, cc, md, [], handler, inc, hks, hm, hdm => by
      simp [walkKeys, specWalkKeys]
  | var, cm, cc, md, k :: ks, handler, inc, hks, hm, hdm => by
      have hkmem : k ∈ metaKeys md := hks k (by simp)
      obtain ⟨v, hv⟩ := mem_metaKeys_lookup md k hkmem
      have hrest := walkKeys_single_eq α var cm cc md ks handler inc
        (fun k2 h2 => hks k2 (by simp [h2])) hm hdm
      cases v with
      | raw w =>
          rw [walkKeys_cons_eq, specWalkKeys_cons_eq]
          simp only [lookupNode, hv, hrest]
          simp
      | allele v2 m2 c2 md2 =>
          have hwn := wfMeta_lookup hm hv
          have hdn := dictMeta_lookup hdm hv
          have hw2 : wfVariant v2 = true ∧ wfMeta md2 = true := by
            simpa [wfNode] using hwn
          have hd2 : (metaKeys md2).Nodup ∧ dictMeta md2 = true := by
            simpa [dictNode] using hdn
          have hsub := walk_single_eq α v2 m2 c2 md2 handler inc hw2.1 hw2.2 hd2.1 hd2.2
          rw [walkKeys_cons_eq, specWalkKeys_cons_eq]
          simp only [lookupNode, hv, lookupAll, hsub, hrest]
termination_by _ _ _ md keys _ _ => (sizeOf md, 0, keys.length)
decreasing_by
  · apply Prod.Lex.right
    apply Prod.Lex.right
    simp only [List.length_cons]
    omega
  · apply Prod.Lex.left
    have h1 := lookupMeta_sizeOf hv
    simp only [Node.allele.sizeOf_spec] at h1
    omega

end

/-- A handler that records the value of the first allele it is given. -/
def recordValues : List Node → Option RawVal
  | .allele v _ _ _ :: _ => some v.value
  | _ => none

def walkExample : Node :=
  .allele (.floatV 3 none none) true true
    [("a", .allele (.floatV 1 none none) true true []),
     ("b", .allele (.floatV 2 none none) true true [])]

/-- The node reached from n by following the metadata keys of the path. -/
def nodeAtPath : List String → Node → Option Node
  | [], n => some n
  | _ :: _, .raw _ => none
  | k :: ks, .allele _ _ _ md =>
      match lookupMeta k md with
      | some v => nodeAtPath ks v
      | none => none

/-- Equality of the schema triple (domain, can_mutate, can_crossbreed) of
two allele nodes. -/
def schemaEq : Node → Node → Bool
  | .allele v1 m1 c1 _, .allele v2 m2 c2 _ =>
      Domain.pyEq v1.domain v2.domain && m1 == m2 && c1 == c2
  | _, _ => false

theorem pyEq_refl (d : Domain) : Domain.pyEq d d = true := by
  cases d with
  | contQ a b => simp [Domain.pyEq]
  | contZ a b => simp [Domain.pyEq]
  | boolD => rfl
  | strD xs => simp [Domain.pyEq, List.all_eq_true]

theorem pyEq_symm {d1 d2 : Domain} (h : Domain.pyEq d1 d2 = true) :
    Domain.pyEq d2 d1 = true := by
  cases d1 <;> cases d2 <;> simp_all [Domain.pyEq]

theorem pyEq_trans {d1 d2 d3 : Domain} (h1 : Domain.pyEq d1 d2 = true)
    (h2 : Domain.pyEq d2 d3 = true) : Domain.pyEq d1 d3 = true := by
  cases d1 <;> cases d2 <;> cases d3 <;> simp_all [Domain.pyEq, List.all_eq_true]

theorem validateSchemasMatch_mem {x : Node} {xs : List Node}
    (h : validateSchemasMatch (x :: xs) = .ok ()) :
    ∀ a ∈ x :: xs, a.isAllele = true → schemaEq a x = true := by
  cases x with
  | raw v => simp [validateSchemasMatch] at h
  | allele var cm cc md =>
      simp only [validateSchemasMatch] at h
      split at h
      · exact absurd h (by simp)
      · split at h
        · exact absurd h (by simp)
        · split at h
          · exact absurd h (by simp)
          · rename_i hdom hmut hcross
            simp only [Bool.not_eq_false, List.all_eq_true] at hdom hmut hcross
            intro a ha hA
            rcases List.mem_cons.mp ha with h1 | h1
            · subst h1
              simp [schemaEq, pyEq_refl]
            · cases a with
              | raw w => simp [Node.isAllele] at hA
              | allele v2 m2 c2 md2 =>
                  have h1d := hdom _ h1
                  have h1m := hmut _ h1
                  have h1c := hcross _ h1
                  simp only at h1d h1m h1c
                  simp [schemaEq, h1d, h1m, h1c]

theorem schemaEq_trans_head {a b x : Node} (ha : schemaEq a x = true)
    (hb : schemaEq b x = true) : schemaEq a b = true := by
  cases a with
  | raw v => simp [schemaEq] at ha
  | allele v1 m1 c1 md1 =>
    cases b with
    | raw w => simp [schemaEq] at hb
    | allele v2 m2 c2 md2 =>
      cases x with
      | raw u => simp [schemaEq] at ha
      | allele vx mx cx mdx =>
        simp only [schemaEq, Bool.and_eq_true, beq_iff_eq] at ha hb ⊢
        obtain ⟨⟨had, ham⟩, hac⟩ := ha
        obtain ⟨⟨hbd, hbm⟩, hbc⟩ := hb
        exact ⟨⟨pyEq_trans had (pyEq_symm hbd), ham.trans hbm.symm⟩, hac.trans hbc.symm⟩

theorem synthKeys_cons_eq (tidx : ℕ) (n0 : Node) (rest : List Node) (k : String)
    (ks : List String) (handler : Node → List Node → Node) (inc : Node → Bool) :
    synthKeys tidx n0 rest (k :: ks) handler inc =
      match lookupAll k (n0 :: rest) with
      | .error e => .error e
      | .ok [] => .error .indexErr
      | .ok (v0 :: vrest) =>
          match synthImpl tidx v0 vrest handler inc with
          | .error e => .error e
          | .ok r =>
              match synthKeys tidx n0 rest ks handler inc with
              | .error e => .error e
              | .ok rs => .ok ((k, r) :: rs) := by
  simp only [synthKeys]
  generalize lookupAll k (n0 :: rest) = x
  rcases x with e | l
  · rfl
  · rcases l with _ | ⟨v0, vrest⟩ <;> rfl

theorem synthKeys_ok_inv {tidx : ℕ} {n0 : Node} {rest : List Node}
    {keys : List String} {handler : Node → List Node → Node} {inc : Node → Bool}
    {rs : Meta} (h : synthKeys tidx n0 rest keys handler inc = .ok rs) :
    ∀ k ∈ keys, ∃ v0 vrest r,
      lookupAll k (n0 :: rest) = .ok (v0 :: vrest) ∧
      synthImpl tidx v0 vrest handler inc = .ok r := by
  induction keys generalizing rs with
  | nil => intro k hk; simp at hk
  | cons k0 ks ih =>
      rw [synthKeys_cons_eq] at h
      split at h
      · exact absurd h (by simp)
      · exact absurd h (by simp)
      · rename_i v0 vrest hlook
        split at h
        · exact absurd h (by simp)
        · rename_i r hr
          split at h
          · exact absurd h (by simp)
          · rename_i rs0 hks
            intro k hk
            rcases List.mem_cons.mp hk with h1 | h1
            · subst h1
              exact ⟨v0, vrest, r, hlook, hr⟩
            · exact ih hks k h1

theorem synthImpl_allele_ok_inv {tidx : ℕ} {var : AVariant} {cm cc : Bool}
    {md : Meta} {rest : List Node} {handler : Node → List Node → Node}
    {inc : Node → Bool} {r : Node}
    (h : synthImpl tidx (.allele var cm cc md) rest handler inc = .ok r) :
    validateSchemasMatch (.allele var cm cc md :: rest) = .ok () ∧
    ∃ keys resolved, collectKeys (.allele var cm cc md :: rest) = .ok keys ∧
      synthKeys tidx (.allele var cm cc md) rest keys handler inc = .ok resolved := by
  rw [synthImpl] at h
  split at h
  · exact absurd h (by simp)
  · split at h
    · exact absurd h (by simp)
    · rename_i u2 hschem
      split at h
      · exact absurd h (by simp)
      · rename_i keys hkeys
        split at h
        · exact absurd h (by simp)
        · rename_i resolved hres
          cases u2
          exact ⟨hschem, keys, resolved, hkeys, hres⟩

theorem synthImpl_raw_ok_no_allele {tidx : ℕ} {v : RawVal} {rest : List Node}
    {handler : Node → List Node → Node} {inc : Node → Bool} {r : Node}
    (h : synthImpl tidx (.raw v) rest handler inc = .ok r) :
    ∀ a ∈ Node.raw v :: rest, a.isAllele = false := by
  rw [synthImpl] at h
  split at h
  · rename_i hall
    intro a ha
    have := List.all_eq_true.mp hall a ha
    cases a with
    | raw w => rfl
    | allele v2 m2 c2 md2 => simp at this
  · exact absurd h (by simp)

theorem collectKeysAux_mem {ns : List Node} {l : List String}
    (h : collectKeysAux ns = .ok l) :
    ∀ var cm cc mda, (Node.allele var cm cc mda) ∈ ns →
    ∀ k ∈ metaKeys mda, k ∈ l := by
  induction ns generalizing l with
  | nil => intro var cm cc mda hmem; simp at hmem
  | cons n ns ih =>
      cases n with
      | raw w => simp [collectKeysAux] at h
      | allele v0 m0 c0 md0 =>
          simp only [collectKeysAux] at h
          split at h
          · exact absurd h (by simp)
          · rename_i ks hks
            have hl : l = metaKeys md0 ++ ks := by
              cases h; rfl
            subst hl
            intro var cm cc mda hmem k hk
            rcases List.mem_cons.mp hmem with h1 | h1
            · cases h1
              exact List.mem_append_left _ hk
            · exact List.mem_append_right _ (ih hks var cm cc mda h1 k hk)

theorem collectKeys_mem {ns : List Node} {keys : List String}
    (h : collectKeys ns = .ok keys) :
    ∀ var cm cc mda, (Node.allele var cm cc mda) ∈ ns →
    ∀ k ∈ metaKeys mda, k ∈ keys := by
  simp only [collectKeys] at h
  split at h
  · exact absurd h (by simp)
  · rename_i l hl
    have hkeys : keys = sortKeys l.dedup := by cases h; rfl
    subst hkeys
    intro var cm cc mda hmem k hk
    exact sortKeys_mem.mpr (List.mem_dedup.mpr (collectKeysAux_mem hl var cm cc mda hmem k hk))

theorem lookupAll_ok_mem {k : String} : ∀ {ns vs : List Node},
    lookupAll k ns = .ok vs → ∀ a ∈ ns, ∃ va, lookupNode k a = .ok va ∧ va ∈ vs := by
  intro ns
  induction ns with
  | nil => intro vs h a ha; simp at ha
  | cons n rest ih =>
      intro vs h a ha
      simp only [lookupAll] at h
      split at h
      · exact absurd h (by simp)
      · rename_i v hv
        split at h
        · exact absurd h (by simp)
        · rename_i ws hws
          have hvs : vs = v :: ws := by cases h; rfl
          subst hvs
          rcases List.mem_cons.mp ha with h1 | h1
          · subst h1
            exact ⟨v, hv, List.mem_cons_self _ _⟩
          · obtain ⟨va, hva, hmem⟩ := ih hws a h1
            exact ⟨va, hva, List.mem_cons_of_mem _ hmem⟩

theorem synthOk_schemas : ∀ (path : List String) (tidx : ℕ) (n0 : Node)
    (rest : List Node) (handler : Node → List Node → Node) (inc : Node → Bool)
    (r : Node), synthImpl tidx n0 rest handler inc = .ok r →
    ∀ a ∈ n0 :: rest, ∀ b ∈ n0 :: rest, ∀ na nb,
    nodeAtPath path a = some na → nodeAtPath path b = some nb →
    na.isAllele = true → nb.isAllele = true → schemaEq na nb = true := by
  intro path
  induction path with
  | nil =>
      intro tidx n0 rest handler inc r h a ha b hb na nb hna hnb hAa hAb
      simp only [nodeAtPath, Option.some.injEq] at hna hnb
      subst hna; subst hnb
      cases n0 with
      | raw v =>
          have := synthImpl_raw_ok_no_allele h a ha
          rw [hAa] at this
          exact absurd this (by simp)
      | allele var cm cc md =>
          obtain ⟨hschem, _, _, _, _⟩ := synthImpl_allele_ok_inv h
          have hax := validateSchemasMatch_mem hschem a ha hAa
          have hbx := validateSchemasMatch_mem hschem b hb hAb
          exact schemaEq_trans_head hax hbx
  | cons k ks ih =>
      intro tidx n0 rest handler inc r h a ha b hb na nb hna hnb hAa hAb
      cases a with
      | raw v => simp [nodeAtPath] at hna
      | allele vara cma cca mda =>
        cases b with
        | raw w => simp [nodeAtPath] at hnb
        | allele varb cmb ccb mdb =>
          simp only [nodeAtPath] at hna hnb
          rcases hva : lookupMeta k mda with _ | va
          · rw [hva] at hna; exact absurd hna (by simp)
          rcases hvb : lookupMeta k mdb with _ | vb
          · rw [hvb] at hnb; exact absurd hnb (by simp)
          rw [hva] at hna
          rw [hvb] at hnb
          cases n0 with
          | raw v0 =>
              have := synthImpl_raw_ok_no_allele h _ ha
              exact absurd this (by simp [Node.isAllele])
          | allele var0 cm0 cc0 md0 =>
              obtain ⟨hschem, keys, resolved, hkeys, hres⟩ := synthImpl_allele_ok_inv h
              have hkmem : k ∈ keys :=
                collectKeys_mem hkeys vara cma cca mda ha k
                  (lookupMeta_mem_keys hva).1
              obtain ⟨v0, vrest, r2, hlook, hr2⟩ := synthKeys_ok_inv hres k hkmem
              obtain ⟨va2, hva2, hvamem⟩ := lookupAll_ok_mem hlook _ ha
              obtain ⟨vb2, hvb2, hvbmem⟩ := lookupAll_ok_mem hlook _ hb
              have hva3 : va2 = va := by
                simp only [lookupNode, hva] at hva2
                cases hva2; rfl
              have hvb3 : vb2 = vb := by
                simp only [lookupNode, hvb] at hvb2
                cases hvb2; rfl
              rw [hva3] at hvamem
              rw [hvb3] at hvbmem
              exact ih tidx v0 vrest handler inc r2 hr2 va hvamem vb hvbmem
                na nb hna hnb hAa hAb

/-- C4: schema-mismatch rejection.  For every synthesis over source trees,
if two sources carry alleles with different schemas (domain, can_mutate or
can_crossbreed) at the same metadata path, the synthesis returns an error:
it never produces a result tree, so differing schemas are never silently
resolved. -/
theorem claim_C4_schema_mismatch (template : Node) (alleles : List Node)
    (handler : Node → List Node → Node) (im ic : Bool)
    (a b : Node) (ha : a ∈ alleles) (hb : b ∈ alleles)
    (path : List String) (na nb : Node)
    (hna : nodeAtPath path a = some na) (hnb : nodeAtPath path b = some nb)
    (hAa : na.isAllele = true) (hAb : nb.isAllele = true)
    (hne : schemaEq na nb = false) :
    ∃ e, synthesize_allele_trees template alleles handler im ic = .error e := by
  cases alleles with
  | nil => exact ⟨.valueErr, rfl⟩
  | cons n0 rest =>
      simp only [synthesize_allele_trees]
      rcases hidx : (n0 :: rest).findIdx? (fun x => x = template) with _ | tidx
      · exact ⟨.valueErr, rfl⟩
      · rcases hsy : synthImpl tidx n0 rest handler
            (shouldIncludeFlags im ic) with e | r
        · exact ⟨e, hsy⟩
        · have := synthOk_schemas path tidx n0 rest handler
            (shouldIncludeFlags im ic) r hsy a ha b hb na nb hna hnb hAa hAb
          rw [hne] at this
          exact absurd this (by simp)

/-- A bounded float allele used as one source of a mismatching pair. -/
def c4A : Node := .allele (.floatV 1 (some 0) (some 1)) true true []

/-- An unbounded float allele whose domain differs from c4A. -/
def c4B : Node := .allele (.floatV 1 none none) true true []

theorem claim_C4_schema_mismatch_witness :
    ∃ e, synthesize_allele_trees c4A [c4A, c4B] (fun t _ => t) true true =
      .error e :=
  claim_C4_schema_mismatch c4A [c4A, c4B] (fun t _ => t) true true c4A c4B
    (by simp) (by simp) [] c4A c4B rfl rfl rfl rfl (by decide)

theorem keysIncl_iff {a b : Meta} :
    keysIncl a b = true ↔ ∀ k ∈ metaKeys a, (lookupMeta k b).isSome = true := by
  simp [keysIncl, List.all_eq_true]

theorem lookupMeta_isSome_mem {md : Meta} {k : String}
    (h : (lookupMeta k md).isSome = true) : k ∈ metaKeys md := by
  rcases hx : lookupMeta k md with _ | v
  · rw [hx] at h; simp at h
  · exact (lookupMeta_mem_keys hx).1

theorem filter_absent_nil {md u : Meta}
    (h : ∀ p ∈ u, (lookupMeta p.1 md).isSome = true) :
    u.filter (fun p => (lookupMeta p.1 md).isNone) = [] := by
  rw [List.filter_eq_nil]
  intro p hp
  have h2 := h p hp
  rcases hx : lookupMeta p.1 md with _ | v
  · rw [hx] at h2; simp at h2
  · simp [hx]

theorem updateMeta_covered {md u : Meta}
    (h : ∀ p ∈ u, (lookupMeta p.1 md).isSome = true) :
    updateMeta md u = md.map (fun p =>
      match lookupMeta p.1 u with
      | some w => (p.1, w)
      | none => p) := by
  simp [updateMeta, filter_absent_nil h]

theorem metaKeys_map_overwrite {md u : Meta} :
    metaKeys (md.map (fun p =>
      match lookupMeta p.1 u with
      | some w => (p.1, w)
      | none => p)) = metaKeys md := by
  induction md with
  | nil => rfl
  | cons p rest ih =>
      obtain ⟨k0, v0⟩ := p
      rcases hx : lookupMeta k0 u with _ | w <;>
        simp only [List.map_cons, metaKeys, hx] at ih ⊢ <;>
        simp [metaKeys] at ih ⊢ <;> exact ih

theorem lookupMeta_map_overwrite {md u : Meta} {k : String} :
    lookupMeta k (md.map (fun p =>
      match lookupMeta p.1 u with
      | some w => (p.1, w)
      | none => p)) =
    match lookupMeta k md, lookupMeta k u with
    | some _, some w => some w
    | some v, none => some v
    | none, _ => none := by
  induction md with
  | nil => simp [lookupMeta]
  | cons p rest ih =>
      obtain ⟨k0, v0⟩ := p
      by_cases hk : k0 = k
      · subst hk
        rcases hx : lookupMeta k0 u with _ | w <;> simp [lookupMeta, hx]
      · rcases hx : lookupMeta k0 u with _ | w <;>
          simp [lookupMeta, hx, hk, ih]

theorem metaKeys_map_flattenEntry {md : Meta} :
    metaKeys (md.map flattenEntry) = metaKeys md := by
  induction md with
  | nil => rfl
  | cons p rest ih =>
      obtain ⟨k, v⟩ := p
      simp only [List.map_cons, flattenEntry_eq, metaKeys] at ih ⊢
      simp [metaKeys] at ih ⊢
      exact ih

theorem sameShapeKeys_of_forall {l md2 : Meta}
    (h : ∀ p ∈ l, ∃ w, lookupMeta p.1 md2 = some w ∧ sameShapeN p.2 w = true) :
    sameShapeKeys l md2 = true := by
  induction l with
  | nil => rfl
  | cons p rest ih =>
      obtain ⟨w, hw, hs⟩ := h p (List.mem_cons_self _ _)
      obtain ⟨k, v⟩ := p
      simp only [sameShapeKeys, hw, Bool.and_eq_true]
      exact ⟨hs, ih (fun q hq => h q (List.mem_cons_of_mem _ hq))⟩

theorem sameShapeKeys_lookup {md1 md2 : Meta} {k : String} {v : Node}
    (h : sameShapeKeys md1 md2 = true) (hv : lookupMeta k md1 = some v) :
    ∃ w, lookupMeta k md2 = some w ∧ sameShapeN v w = true := by
  induction md1 with
  | nil => simp [lookupMeta] at hv
  | cons p rest ih =>
      obtain ⟨k0, v0⟩ := p
      simp only [sameShapeKeys, Bool.and_eq_true] at h
      obtain ⟨h1, h2⟩ := h
      by_cases hk : k0 = k
      · subst hk
        simp only [lookupMeta, if_pos rfl] at hv
        cases hv
        rcases hx : lookupMeta k0 md2 with _ | w
        · rw [hx] at h1; simp at h1
        · simp only [hx] at h1
          exact ⟨w, rfl, h1⟩
      · simp only [lookupMeta, if_neg hk] at hv
        exact ih h2 hv

theorem mkAllele_ok_shape {var : AVariant} {cm cc : Bool} {md : Meta} {n : Node}
    (h : mkAllele var cm cc md = .ok n) :
    ∃ var2, n = .allele var2 cm cc md ∧ var2.domain = var.domain := by
  cases var with
  | floatV v dmin dmax =>
      simp only [mkAllele] at h
      cases h
      exact ⟨_, rfl, rfl⟩
  | intV r dmin dmax =>
      simp only [mkAllele] at h
      cases h
      exact ⟨_, rfl, rfl⟩
  | logV v dmin dmax =>
      simp only [mkAllele] at h
      split at h
      · exact absurd h (by simp)
      · split at h
        · exact absurd h (by simp)
        · cases h
          exact ⟨_, rfl, rfl⟩
  | boolV b =>
      simp only [mkAllele] at h
      cases h
      exact ⟨_, rfl, rfl⟩
  | stringV s dom =>
      simp only [mkAllele] at h
      split at h
      · cases h
        exact ⟨_, rfl, rfl⟩
      · exact absurd h (by simp)

theorem lookupAll_mem_inv {k : String} : ∀ {ns vs : List Node},
    lookupAll k ns = .ok vs → ∀ c ∈ vs, ∃ a ∈ ns, lookupNode k a = .ok c := by
  intro ns
  induction ns with
  | nil =>
      intro vs h c hc
      simp only [lookupAll] at h
      cases h
      simp at hc
  | cons n rest ih =>
      intro vs h c hc
      obtain ⟨v, vrest, hv, hrest, heq⟩ := lookupAll_cons_inv h
      subst heq
      rcases List.mem_cons.mp hc with h1 | h1
      · subst h1
        exact ⟨n, List.mem_cons_self _ _, hv⟩
      · obtain ⟨a, ha, hav⟩ := ih hrest c h1
        exact ⟨a, List.mem_cons_of_mem _ ha, hav⟩

theorem lookupAll_get {k : String} : ∀ {ns vs : List Node},
    lookupAll k ns = .ok vs → ∀ i a, ns.get? i = some a →
    ∃ v, vs.get? i = some v ∧ lookupNode k a = .ok v := by
  intro ns
  induction ns with
  | nil => intro vs h i a ha; simp at ha
  | cons n rest ih =>
      intro vs h i a ha
      obtain ⟨v, vrest, hv, hrest, heq⟩ := lookupAll_cons_inv h
      subst heq
      cases i with
      | zero =>
          simp only [List.get?_cons_zero, Option.some.injEq] at ha
          subst ha
          exact ⟨v, rfl, hv⟩
      | succ j =>
          simp only [List.get?_cons_succ] at ha ⊢
          exact ih hrest j a ha

theorem collectKeysAux_mem_inv {ns : List Node} {l : List String}
    (h : collectKeysAux ns = .ok l) :
    ∀ k ∈ l, ∃ var cm cc mda, (Node.allele var cm cc mda) ∈ ns ∧ k ∈ metaKeys mda := by
  induction ns generalizing l with
  | nil =>
      intro k hk
      simp only [collectKeysAux] at h
      cases h
      simp at hk
  | cons n rest ih =>
      cases n with
      | raw w => simp [collectKeysAux] at h
      | allele v0 m0 c0 md0 =>
          simp only [collectKeysAux] at h
          split at h
          · exact absurd h (by simp)
          · rename_i ks hks
            have hl : l = metaKeys md0 ++ ks := by cases h; rfl
            subst hl
            intro k hk
            rcases List.mem_append.mp hk with h1 | h1
            · exact ⟨v0, m0, c0, md0, List.mem_cons_self _ _, h1⟩
            · obtain ⟨var, cm, cc, mda, hmem, hkm⟩ := ih hks k h1
              exact ⟨var, cm, cc, mda, List.mem_cons_of_mem _ hmem, hkm⟩

theorem collectKeys_mem_inv {ns : List Node} {keys : List String}
    (h : collectKeys ns = .ok keys) :
    ∀ k ∈ keys, ∃ var cm cc mda, (Node.allele var cm cc mda) ∈ ns ∧ k ∈ metaKeys mda := by
  simp only [collectKeys] at h
  split at h
  · exact absurd h (by simp)
  · rename_i l hl
    have hk : keys = sortKeys l.dedup := by cases h; rfl
    subst hk
    intro k hk
    exact collectKeysAux_mem_inv hl k (List.mem_dedup.mp (sortKeys_mem.mp hk))

theorem synthKeys_metaKeys {tidx : ℕ} {n0 : Node} {rest : List Node}
    {handler : Node → List Node → Node} {inc : Node → Bool} :
    ∀ {keys : List String} {rs : Meta},
    synthKeys tidx n0 rest keys handler inc = .ok rs → metaKeys rs = keys := by
  intro keys
  induction keys with
  | nil =>
      intro rs h
      simp only [synthKeys] at h
      cases h
      rfl
  | cons k0 ks ih =>
      intro rs h
      rw [synthKeys_cons_eq] at h
      split at h
      · exact absurd h (by simp)
      · exact absurd h (by simp)
      · rename_i v0 vrest hlook
        split at h
        · exact absurd h (by simp)
        · rename_i r hr
          split at h
          · exact absurd h (by simp)
          · rename_i rs0 hks
            have hrs : rs = (k0, r) :: rs0 := by cases h; rfl
            subst hrs
            simp [metaKeys] at ih ⊢
            exact ih hks

theorem synthKeys_lookup_inv {tidx : ℕ} {n0 : Node} {rest : List Node}
    {handler : Node → List Node → Node} {inc : Node → Bool} :
    ∀ {keys : List String} {rs : Meta} {k : String} {r : Node},
    synthKeys tidx n0 rest keys handler inc = .ok rs →
    lookupMeta k rs = some r →
    ∃ v0 vrest, lookupAll k (n0 :: rest) = .ok (v0 :: vrest) ∧
      synthImpl tidx v0 vrest handler inc = .ok r := by
  intro keys
  induction keys with
  | nil =>
      intro rs k r h hl
      simp only [synthKeys] at h
      cases h
      simp [lookupMeta] at hl
  | cons k0 ks ih =>
      intro rs k r h hl
      rw [synthKeys_cons_eq] at h
      split at h
      · exact absurd h (by simp)
      · exact absurd h (by simp)
      · rename_i v0 vrest hlook
        split at h
        · exact absurd h (by simp)
        · rename_i r0 hr0
          split at h
          · exact absurd h (by simp)
          · rename_i rs0 hks
            have hrs : rs = (k0, r0) :: rs0 := by cases h; rfl
            subst hrs
            by_cases hk : k0 = k
            · subst hk
              simp only [lookupMeta, if_pos rfl] at hl
              cases hl
              exact ⟨v0, vrest, hlook, hr0⟩
            · simp only [lookupMeta, if_neg hk] at hl
              exact ih hks hl

theorem findIdx_some_get {p : Node → Bool} : ∀ {l : List Node} {i : ℕ},
    l.findIdx? p = some i → ∃ a, l.get? i = some a ∧ p a = true := by
  intro l
  induction l with
  | nil => intro i h; simp [List.findIdx?] at h
  | cons n rest ih =>
      intro i h
      rw [List.findIdx?_cons] at h
      by_cases hp : p n
      · simp only [hp, if_pos] at h
        cases h
        exact ⟨n, rfl, hp⟩
      · simp only [hp, if_neg, Bool.false_eq_true, not_false_iff] at h
        rw [List.findIdx?_succ] at h
        rcases hx : (rest.findIdx? p) with _ | j
        · rw [hx] at h
          simp at h
        · rw [hx] at h
          simp only [Option.map_some', Option.some.injEq] at h
          subst h
          obtain ⟨a, ha, hpa⟩ := ih hx
          exact ⟨a, by simpa using ha, hpa⟩

theorem sameShapeN_allele_intro {v1 v2 : AVariant} {m1 c1 m2 c2 : Bool}
    {md1 md2 : Meta} (hd : Domain.pyEq v1.domain v2.domain = true)
    (hm : m1 = m2) (hc : c1 = c2) (hs : sameShapeKeys md1 md2 = true)
    (hk : keysIncl md2 md1 = true) :
    sameShapeN (.allele v1 m1 c1 md1) (.allele v2 m2 c2 md2) = true := by
  simp [sameShapeN, hd, hm, hc, hs, hk]

theorem sameShapeN_allele_elim {v1 v2 : AVariant} {m1 c1 m2 c2 : Bool}
    {md1 md2 : Meta}
    (h : sameShapeN (.allele v1 m1 c1 md1) (.allele v2 m2 c2 md2) = true) :
    Domain.pyEq v1.domain v2.domain = true ∧ m1 = m2 ∧ c1 = c2 ∧
    sameShapeKeys md1 md2 = true ∧ keysIncl md2 md1 = true := by
  simp only [sameShapeN, Bool.and_eq_true, beq_iff_eq] at h
  exact ⟨h.1.1.1.1, h.1.1.1.2, h.1.1.2, h.1.2, h.2⟩

theorem sameShapeN_allele_raw {v : AVariant} {m c : Bool} {md : Meta}
    {w : RawVal} : sameShapeN (.allele v m c md) (.raw w) = false := by
  simp [sameShapeN]

theorem sameShapeN_raw_raw {v w : RawVal} :
    sameShapeN (.raw v) (.raw w) = true := by
  simp [sameShapeN]

theorem synthImpl_raw_ok_eq {tidx : ℕ} {v : RawVal} {rest : List Node}
    {handler : Node → List Node → Node} {inc : Node → Bool} {r : Node}
    (h : synthImpl tidx (.raw v) rest handler inc = .ok r) : r = .raw v := by
  rw [synthImpl] at h
  split at h
  · cases h; rfl
  · exact absurd h (by simp)

theorem synthImpl_ok_full {tidx : ℕ} {var : AVariant} {cm cc : Bool}
    {md : Meta} {rest : List Node} {handler : Node → List Node → Node}
    {inc : Node → Bool} {r : Node}
    (h : synthImpl tidx (.allele var cm cc md) rest handler inc = .ok r) :
    ∃ keys resolved ts template,
      collectKeys (.allele var cm cc md :: rest) = .ok keys ∧
      synthKeys tidx (.allele var cm cc md) rest keys handler inc = .ok resolved ∧
      (Node.allele var cm cc md :: rest).get? tidx = some ts ∧
      ts.withMetadata resolved = .ok template ∧
      ((inc template = false ∧ r = template) ∨
       (inc template = true ∧ ∃ ft fs,
         template.flatten = .ok ft ∧
         (Node.allele var cm cc md :: rest).mapM Node.flatten = .ok fs ∧
         (handler ft fs).unflatten resolved = .ok r)) := by
  rw [synthImpl] at h
  split at h
  · exact absurd h (by simp)
  · split at h
    · exact absurd h (by simp)
    · split at h
      · exact absurd h (by simp)
      · rename_i keys hkeys
        split at h
        · exact absurd h (by simp)
        · rename_i resolved hres
          split at h
          · exact absurd h (by simp)
          · rename_i ts hts
            split at h
            · exact absurd h (by simp)
            · rename_i template htpl
              split at h
              · rename_i hinc
                split at h
                · exact absurd h (by simp)
                · rename_i ft hft
                  split at h
                  · exact absurd h (by simp)
                  · rename_i fs hfs
                    exact ⟨keys, resolved, ts, template, hkeys, hres, hts, htpl,
                      .inr ⟨hinc, ft, fs, hft, hfs, h⟩⟩
              · rename_i hinc
                have hr : r = template := by cases h; rfl
                exact ⟨keys, resolved, ts, template, hkeys, hres, hts, htpl,
                  .inl ⟨by simpa using hinc, hr⟩⟩

theorem synthShapeAux {handler : Node → List Node → Node} {inc : Node → Bool}
    (hH : handlerTopOk handler) :
    ∀ (N tidx : ℕ) (n0 : Node) (rest : List Node) (r ts : Node),
    sizeOf n0 + sizeOf rest ≤ N →
    synthImpl tidx n0 rest handler inc = .ok r →
    (n0 :: rest).get? tidx = some ts →
    (∀ a ∈ n0 :: rest, sameShapeN a ts = true) →
    sameShapeN r ts = true := by
  intro N
  induction N with
  | zero =>
      intro tidx n0 rest r ts hsz
      exfalso
      have h1 : 0 < sizeOf n0 := by
        cases n0 <;> simp <;> omega
      omega
  | succ N ih =>
      intro tidx n0 rest r ts hsz hok hts hiso
      cases n0 with
      | raw v =>
          have hr := synthImpl_raw_ok_eq hok
          subst hr
          have hts_mem : ts ∈ Node.raw v :: rest := List.get?_mem hts
          have hA := synthImpl_raw_ok_no_allele hok ts hts_mem
          cases ts with
          | raw w => exact sameShapeN_raw_raw
          | allele vt mt ct mdt => simp [Node.isAllele] at hA
      | allele var cm cc md =>
          obtain ⟨keys, resolved, ts0, template, hkeys, hres, hts0, htpl, hbr⟩ :=
            synthImpl_ok_full hok
          rw [hts] at hts0
          rw [← Option.some.inj hts0] at htpl
          have hts_mem : ts ∈ Node.allele var cm cc md :: rest := List.get?_mem hts
          have hhead := hiso _ (List.mem_cons_self (Node.allele var cm cc md) rest)
          cases ts with
          | raw w =>
              rw [sameShapeN_allele_raw] at hhead
              exact absurd hhead (by simp)
          | allele vart cmt cct mdt =>
          have hkeys_sub : ∀ k ∈ keys, (lookupMeta k mdt).isSome = true := by
            intro k hk
            obtain ⟨va, ca, cca, mda, hmem, hkm⟩ := collectKeys_mem_inv hkeys k hk
            obtain ⟨_, _, _, hkeys1, _⟩ := sameShapeN_allele_elim (hiso _ hmem)
            obtain ⟨v2, hv2⟩ := mem_metaKeys_lookup mda k hkm
            obtain ⟨w, hw, _⟩ := sameShapeKeys_lookup hkeys1 hv2
            simp [hw]
          have hmdt_sub : ∀ k ∈ metaKeys mdt, k ∈ keys := fun k hk =>
            collectKeys_mem hkeys vart cmt cct mdt hts_mem k hk
          have hres_keys : metaKeys resolved = keys := synthKeys_metaKeys hres
          have hchild : ∀ k rk, lookupMeta k resolved = some rk →
              ∃ w, lookupMeta k mdt = some w ∧ sameShapeN rk w = true := by
            intro k rk hrk
            obtain ⟨v0, vrest, hlook, hrk2⟩ := synthKeys_lookup_inv hres hrk
            obtain ⟨tsk, htsk_get, htsk_look⟩ := lookupAll_get hlook tidx _ hts
            have htsk : lookupMeta k mdt = some tsk := by
              simp only [lookupNode] at htsk_look
              rcases hy : lookupMeta k mdt with _ | c2
              · rw [hy] at htsk_look; exact absurd htsk_look (by simp)
              · rw [hy] at htsk_look
                cases htsk_look
                rfl
            have hiso_child : ∀ c ∈ v0 :: vrest, sameShapeN c tsk = true := by
              intro c hc
              obtain ⟨a, ha, hac⟩ := lookupAll_mem_inv hlook c hc
              cases a with
              | raw w2 => simp [lookupNode] at hac
              | allele va2 ma2 ca2 mda2 =>
                  have hlc : lookupMeta k mda2 = some c := by
                    simp only [lookupNode] at hac
                    rcases hy : lookupMeta k mda2 with _ | c2
                    · rw [hy] at hac; exact absurd hac (by simp)
                    · rw [hy] at hac
                      cases hac
                      rfl
                  obtain ⟨_, _, _, hkeys1, _⟩ := sameShapeN_allele_elim (hiso _ ha)
                  obtain ⟨w, hw, hsw⟩ := sameShapeKeys_lookup hkeys1 hlc
                  rw [htsk] at hw
                  cases hw
                  exact hsw
            have hsz_child : sizeOf v0 + sizeOf vrest ≤ N := by
              obtain ⟨v0b, vrestb, hv0, hvrest, heq⟩ := lookupAll_cons_inv hlook
              cases heq
              have h1 := lookupNode_sizeOf hv0
              have h2 := lookupAll_sizeOf hvrest
              omega
            exact ⟨tsk, htsk, ih tidx v0 vrest rk tsk hsz_child hrk2 htsk_get hiso_child⟩
          have htpl2 : mkAllele vart cmt cct (updateMeta mdt resolved) = .ok template :=
            htpl
          obtain ⟨var2, htpl_eq, hdom2⟩ := mkAllele_ok_shape htpl2
          subst htpl_eq
          have hcov : ∀ p ∈ resolved, (lookupMeta p.1 mdt).isSome = true := by
            intro p hp
            apply hkeys_sub
            rw [← hres_keys]
            simp only [metaKeys]
            exact List.mem_map_of_mem _ hp
          have hmd_eq := updateMeta_covered hcov
          have hshape_md : sameShapeKeys (updateMeta mdt resolved) mdt = true := by
            rw [hmd_eq]
            apply sameShapeKeys_of_forall
            intro p hp
            obtain ⟨q, hq, hpq⟩ := List.mem_map.mp hp
            have hq1 : q.1 ∈ keys := by
              apply hmdt_sub
              simp only [metaKeys]
              exact List.mem_map_of_mem _ hq
            rw [← hres_keys] at hq1
            obtain ⟨rk, hrk⟩ := mem_metaKeys_lookup resolved q.1 hq1
            rw [hrk] at hpq
            subst hpq
            exact hchild q.1 rk hrk
          have hincl_md : keysIncl mdt (updateMeta mdt resolved) = true := by
            rw [hmd_eq, keysIncl_iff]
            intro k hk
            obtain ⟨v2, hv2⟩ := mem_metaKeys_lookup mdt k hk
            rw [lookupMeta_map_overwrite, hv2]
            rcases hu : lookupMeta k resolved with _ | w <;> simp
          rcases hbr with ⟨hinc, hr⟩ | ⟨hinc, ft, fs, hft, hfs, hunf⟩
          · subst hr
            exact sameShapeN_allele_intro (hdom2 ▸ pyEq_refl vart.domain) rfl rfl
              hshape_md hincl_md
          · have hft2 : mkAllele var2 cmt cct
                (updateMeta (updateMeta mdt resolved)
                  ((updateMeta mdt resolved).map flattenEntry)) = .ok ft := hft
            obtain ⟨var3, hft_eq, hdom3⟩ := mkAllele_ok_shape hft2
            subst hft_eq
            have hcov2 : ∀ p ∈ (updateMeta mdt resolved).map flattenEntry,
                (lookupMeta p.1 (updateMeta mdt resolved)).isSome = true := by
              intro p hp
              obtain ⟨q, hq, hpq⟩ := List.mem_map.mp hp
              rw [flattenEntry_eq] at hpq
              subst hpq
              obtain ⟨v2, hv2⟩ := mem_metaKeys_lookup (updateMeta mdt resolved) q.1
                (by simp only [metaKeys]; exact List.mem_map_of_mem _ hq)
              simp [hv2]
            have hft_keys : metaKeys (updateMeta (updateMeta mdt resolved)
                ((updateMeta mdt resolved).map flattenEntry)) = metaKeys mdt := by
              rw [updateMeta_covered hcov2, metaKeys_map_overwrite, hmd_eq,
                metaKeys_map_overwrite]
            have hHok := hH (.allele var3 cmt cct
              (updateMeta (updateMeta mdt resolved)
                ((updateMeta mdt resolved).map flattenEntry))) fs rfl
            rcases hHn : handler (.allele var3 cmt cct
                (updateMeta (updateMeta mdt resolved)
                  ((updateMeta mdt resolved).map flattenEntry))) fs with wv |
                ⟨varH, mH, cH, mdH⟩
            · rw [hHn] at hHok
              simp [topShapeOk] at hHok
            · rw [hHn] at hHok hunf
              simp only [topShapeOk, Bool.and_eq_true, beq_iff_eq] at hHok
              obtain ⟨⟨⟨⟨hdomH, hmH⟩, hcH⟩, hk1⟩, hk2⟩ := hHok
              rw [hmH, hcH] at hunf
              have hunf2 : mkAllele varH cmt cct
                  (updateMeta mdH (updateMeta mdH resolved)) = .ok r := hunf
              obtain ⟨varR, hr_eq, hdomR⟩ := mkAllele_ok_shape hunf2
              subst hr_eq
              have hcov3 : ∀ p ∈ resolved, (lookupMeta p.1 mdH).isSome = true := by
                intro p hp
                have hp1 : p.1 ∈ keys := by
                  rw [← hres_keys]
                  simp only [metaKeys]
                  exact List.mem_map_of_mem _ hp
                have hpt : p.1 ∈ metaKeys mdt := lookupMeta_isSome_mem (hkeys_sub _ hp1)
                rw [← hft_keys] at hpt
                exact (keysIncl_iff.mp hk2) _ hpt
              have hM_eq := updateMeta_covered hcov3
              have hM_keys : metaKeys (updateMeta mdH resolved) = metaKeys mdH := by
                rw [hM_eq, metaKeys_map_overwrite]
              have hcov4 : ∀ p ∈ updateMeta mdH resolved,
                  (lookupMeta p.1 mdH).isSome = true := by
                intro p hp
                have hpk : p.1 ∈ metaKeys mdH := by
                  rw [← hM_keys]
                  simp only [metaKeys]
                  exact List.mem_map_of_mem _ hp
                obtain ⟨v2, hv2⟩ := mem_metaKeys_lookup mdH p.1 hpk
                simp [hv2]
              have hmdR_eq := updateMeta_covered hcov4
              have hmdH_keys : ∀ k ∈ metaKeys mdH, k ∈ keys := by
                intro k hk
                have h2 := (keysIncl_iff.mp hk1) _ hk
                have h3 : k ∈ metaKeys mdt := by
                  rw [← hft_keys]
                  exact lookupMeta_isSome_mem h2
                exact hmdt_sub _ h3
              have hlookM : ∀ k rk, k ∈ metaKeys mdH →
                  lookupMeta k resolved = some rk →
                  lookupMeta k (updateMeta mdH resolved) = some rk := by
                intro k rk hk hrk
                obtain ⟨v2, hv2⟩ := mem_metaKeys_lookup mdH k hk
                rw [hM_eq, lookupMeta_map_overwrite, hv2, hrk]
              apply sameShapeN_allele_intro
              · rw [hdomR]
                rw [hdom3, hdom2] at hdomH
                exact hdomH
              · rfl
              · rfl
              · rw [hmdR_eq]
                apply sameShapeKeys_of_forall
                intro p hp
                obtain ⟨q, hq, hpq⟩ := List.mem_map.mp hp
                have hqk : q.1 ∈ metaKeys mdH := by
                  simp only [metaKeys]
                  exact List.mem_map_of_mem _ hq
                have hq1 : q.1 ∈ keys := hmdH_keys _ hqk
                rw [← hres_keys] at hq1
                obtain ⟨rk, hrk⟩ := mem_metaKeys_lookup resolved q.1 hq1
                rw [hlookM q.1 rk hqk hrk] at hpq
                subst hpq
                exact hchild q.1 rk hrk
              · rw [hmdR_eq, keysIncl_iff]
                intro k hk
                have h2 : k ∈ metaKeys mdH := by
                  have h3 : k ∈ metaKeys (updateMeta (updateMeta mdt resolved)
                      ((updateMeta mdt resolved).map flattenEntry)) := by
                    rw [hft_keys]
                    exact hk
                  exact lookupMeta_isSome_mem ((keysIncl_iff.mp hk2) _ h3)
                obtain ⟨v2, hv2⟩ := mem_metaKeys_lookup mdH k h2
                rw [lookupMeta_map_overwrite, hv2]
                rcases hu : lookupMeta k (updateMeta mdH resolved) with _ | w <;> simp

/-- C1 (amended): for every synthesis whose sources are all shape
isomorphic to the template (equal domain, flags and metadata key set at
every node) and whose handler preserves the top level shape of the
flattened template it receives (the convention template.with_value
follows), a successful synthesis returns a tree whose domain, flags and
metadata key set at every node equal the template tree's. -/
theorem claim_C1_template_shape (template : Node) (alleles : List Node)
    (handler : Node → List Node → Node) (im ic : Bool) (r : Node)
    (hH : handlerTopOk handler)
    (hiso : ∀ a ∈ alleles, sameShapeN a template = true)
    (hok : synthesize_allele_trees template alleles handler im ic = .ok r) :
    sameShapeN r template = true := by
  cases alleles with
  | nil => simp [synthesize_allele_trees] at hok
  | cons n0 rest =>
      simp only [synthesize_allele_trees] at hok
      rcases hidx : (n0 :: rest).findIdx? (fun a => a = template) with _ | tidx
      · rw [hidx] at hok
        exact absurd hok (by simp)
      · rw [hidx] at hok
        obtain ⟨a, ha, hpa⟩ := findIdx_some_get hidx
        have ha2 : a = template := of_decide_eq_true hpa
        subst ha2
        exact synthShapeAux hH (sizeOf n0 + sizeOf rest) tidx n0 rest r a
          le_rfl hok ha hiso

/-- The template of the C1 counterexample: an unbounded float allele with
can_mutate set. -/
def c1T : Node := .allele (.floatV 1 none none) true true []

/-- A handler that returns an allele with can_mutate cleared, ignoring the
template it receives. -/
def c1H : Node → List Node → Node := fun _ _ => .allele (.floatV 1 none none) false true []

/-- The value the C1 counterexample synthesis returns. -/
def c1R : Node := .allele (.floatV 1 none none) false true []

theorem claim_C1_template_shape_cex :
    synthesize_allele_trees c1T [c1T] c1H true true = .ok c1R ∧
    sameShapeN c1R c1T = false := by
  constructor
  · simp +decide [synthesize_allele_trees, c1T, c1H, c1R, synthImpl, synthKeys,
      validateParallelTypes, validateSchemasMatch, collectKeys, collectKeysAux,
      sortKeys, metaKeys, Node.withMetadata, updateMeta, mkAllele, clampQ,
      Node.flatten, Node.unflatten, flattenEntry, lookupMeta,
      shouldIncludeFlags, List.findIdx?, Node.pyclass, List.dedup,
      List.mapM, List.mapM.loop]
  · simp [sameShapeN, c1R, c1T]

theorem handlerTopOk_id : handlerTopOk (fun t _ => t) := by
  intro t srcs ht
  cases t with
  | raw v => simp [Node.isAllele] at ht
  | allele var cm cc md =>
      have hk : keysIncl md md = true := by
        rw [keysIncl_iff]
        intro k hk2
        obtain ⟨v2, hv2⟩ := mem_metaKeys_lookup md k hk2
        simp [hv2]
      simp [topShapeOk, pyEq_refl, hk]

theorem claim_C1_template_shape_witness :
    sameShapeN c1T c1T = true := by
  have hok : synthesize_allele_trees c1T [c1T] (fun t _ => t) true true = .ok c1T := by
    simp +decide [synthesize_allele_trees, c1T, synthImpl, synthKeys,
      validateParallelTypes, validateSchemasMatch, collectKeys, collectKeysAux,
      sortKeys, metaKeys, Node.withMetadata, updateMeta, mkAllele, clampQ,
      Node.flatten, Node.unflatten, flattenEntry, lookupMeta,
      shouldIncludeFlags, List.findIdx?, Node.pyclass, List.dedup,
      List.mapM, List.mapM.loop]
  exact claim_C1_template_shape c1T [c1T] (fun t _ => t) true true c1T
    handlerTopOk_id (by
      intro a ha
      simp at ha
      subst ha
      simp +decide [sameShapeN, c1T, sameShapeKeys, keysIncl, metaKeys]) hok

/-- C7: simulated binary crossover errors whenever the number of live
(non-zero-probability) ancestry entries differs from two; with exactly two
live parents at indices i and j it returns the SBX value computed from the
parent values, eta (metadata override or default) and the two uniform
draws, where beta is (2u)^(1/(eta+1)) for u below one half and
(1/(2(1-u)))^(1/(eta+1)) otherwise; and the concrete scenario p1=2, p2=8,
eta=2, u=1/4, r=3/10 yields a value within 1/500 of 2.6187. -/
theorem claim_C7_sbx (defaultEta : ℝ) (etaMeta : Option ℚ)
    (ancestry : List (ℚ × String)) (vals : List ℝ) (u r : ℝ) :
    ((sbxLiveIndices ancestry).length ≠ 2 →
      sbxHandleCrossbreeding defaultEta etaMeta ancestry vals u r =
        .error .valueErr) ∧
    (∀ i j p1 p2, sbxLiveIndices ancestry = [i, j] →
      vals.get? i = some p1 → vals.get? j = some p2 →
      sbxHandleCrossbreeding defaultEta etaMeta ancestry vals u r =
        .ok (sbxValue p1 p2
          (match etaMeta with
           | some q => (q : ℝ)
           | none => defaultEta) u r)) ∧
    (sbxHandleCrossbreeding 2 none [(1/2, "a"), (1/2, "b")] [2, 8]
        (1/4) (3/10) = .ok (sbxValue 2 8 2 (1/4) (3/10)) ∧
      |sbxValue 2 8 2 (1/4) (3/10) - 2.6187| < 1/500) := by
  refine ⟨?_, ?_, ?_, ?_⟩
  · intro hlen
    simp only [sbxHandleCrossbreeding]
    rcases hl : sbxLiveIndices ancestry with _ | ⟨i, _ | ⟨j, _ | ⟨k, tl⟩⟩⟩
    · rfl
    · rfl
    · rw [hl] at hlen
      simp at hlen
    · rfl
  · intro i j p1 p2 hl hp1 hp2
    simp only [sbxHandleCrossbreeding, hl, hp1, hp2]
  · have hl : sbxLiveIndices [((1:ℚ)/2, "a"), ((1:ℚ)/2, "b")] = [0, 1] := by
      norm_num [sbxLiveIndices, List.range_succ, List.filter]
    simp only [sbxHandleCrossbreeding, hl, List.get?]
  · have hupos : ((1:ℝ)/4) ≤ 1/2 := by norm_num
    have hb_eq : sbxBeta 2 (1/4) = ((1/2 : ℝ)) ^ ((1:ℝ)/3) := by
      rw [sbxBeta, if_pos hupos]
      norm_num
    have hb3 : sbxBeta 2 (1/4) ^ (3:ℕ) = 1/2 := by
      rw [hb_eq]
      rw [← Real.rpow_natCast ((1/2:ℝ) ^ ((1:ℝ)/3)) 3,
        ← Real.rpow_mul (by norm_num : (0:ℝ) ≤ 1/2)]
      norm_num
    have hbpos : (0:ℝ) ≤ sbxBeta 2 (1/4) := by
      rw [hb_eq]
      exact Real.rpow_nonneg (by norm_num) _
    have hblo : (7937/10000 : ℝ) < sbxBeta 2 (1/4) :=
      lt_of_pow_lt_pow_left 3 hbpos (by rw [hb3]; norm_num)
    have hbhi : sbxBeta 2 (1/4) < 7938/10000 :=
      lt_of_pow_lt_pow_left 3 (by norm_num) (by rw [hb3]; norm_num)
    rw [sbxValue, if_pos (by norm_num : (3/10:ℝ) < 1/2)]
    rw [abs_lt]
    constructor <;> nlinarith [hblo, hbhi]

theorem claim_C7_sbx_witness :
    sbxHandleCrossbreeding 2 none [(1/2, "a"), (1/2, "b"), (0, "c")]
      [2, 8, 9] (1/4) (3/10) = .ok (sbxValue 2 8 2 (1/4) (3/10)) := by
  have h := (claim_C7_sbx 2 none [(1/2, "a"), (1/2, "b"), (0, "c")]
    [2, 8, 9] (1/4) (3/10)).2.1
  apply h 0 1 2 8
  · norm_num [sbxLiveIndices, List.range_succ, List.filter]
  · rfl
  · rfl

/-- The per tree child extraction of the parallel walk, the spec wording
subtrees equal allele.metadata at the key for every allele of the list (a
raw element has no metadata). -/
def childAt (k : String) : Node → Option Node
  | .raw _ => none
  | .allele _ _ _ md => lookupMeta k md

theorem childAt_sizeOf {k : String} {a c : Node} (h : childAt k a = some c) :
    sizeOf c < sizeOf a := by
  cases a with
  | raw v => simp [childAt] at h
  | allele var cm cc md =>
      simp only [childAt] at h
      have := lookupMeta_sizeOf h
      simp only [Node.allele.sizeOf_spec]
      omega

theorem filterMap_childAt_sizeOf (k : String) : ∀ (l : List Node),
    sizeOf (l.filterMap (childAt k)) ≤ sizeOf l := by
  intro l
  induction l with
  | nil => simp
  | cons a rest ih =>
      rcases hc : childAt k a with _ | c
      · rw [List.filterMap_cons_none hc]
        simp only [List.cons.sizeOf_spec]
        omega
      · rw [List.filterMap_cons_some hc]
        have := childAt_sizeOf hc
        simp only [List.cons.sizeOf_spec]
        omega

mutual

/-- The parallel walk order written from the spec wording: the first tree
drives the traversal; at each node, first the results of the metadata keys
of the first tree in lexical order, recursing in parallel (every tree
contributing its child at the key) only where the first tree's value is an
allele (raw scalars are skipped); after the children, if the first tree
passes the inclusion filter, the handler result on the flattened trees
(skipped when None). -/
def specWalkNs (n0 : Node) (rest : List Node) (handler : List Node → Option α)
    (inc : Node → Bool) : List α :=
  match n0 with
  | .raw _ => []
  | .allele var cm cc md =>
      specWalkKeysNs (.allele var cm cc md) rest (sortKeys (metaKeys md).dedup)
        handler inc ++
      (if inc (.allele var cm cc md) then
        (handler ((Node.allele var cm cc md :: rest).map specFlatten)).toList
       else [])
termination_by (sizeOf n0 + sizeOf rest, 1, 0)
decreasing_by
  apply Prod.Lex.right
  apply Prod.Lex.left
  omega

/-- The key loop of the parallel spec walk. -/
def specWalkKeysNs (n0 : Node) (rest : List Node) (keys : List String)
    (handler : List Node → Option α) (inc : Node → Bool) : List α :=
  match keys with
  | [] => []
  | k :: ks =>
      (match hc : childAt k n0 with
       | some (.allele v2 m2 c2 md2) =>
           specWalkNs (.allele v2 m2 c2 md2) (rest.filterMap (childAt k)) handler inc
       | _ => []) ++ specWalkKeysNs n0 rest ks handler inc
termination_by (sizeOf n0 + sizeOf rest, 0, keys.length)
decreasing_by
  all_goals first
    | (apply Prod.Lex.right
       apply Prod.Lex.right
       simp only [List.length_cons]
       omega)
    | (apply Prod.Lex.left
       have h1 := childAt_sizeOf hc
       have h2 := filterMap_childAt_sizeOf k rest
       omega)

end

theorem specWalkKeysNs_cons_eq (n0 : Node) (rest : List Node) (k : String)
    (ks : List String) (handler : List Node → Option α) (inc : Node → Bool) :
    specWalkKeysNs n0 rest (k :: ks) handler inc =
      (match childAt k n0 with
       | some (.allele v2 m2 c2 md2) =>
           specWalkNs (.allele v2 m2 c2 md2) (rest.filterMap (childAt k)) handler inc
       | _ => []) ++ specWalkKeysNs n0 rest ks handler inc := by
  simp only [specWalkKeysNs]
  generalize childAt k n0 = x
  rcases x with _ | v
  · rfl
  · rcases v with w | ⟨a, b, c, d⟩ <;> rfl

theorem insertSorted_eq (s : String) : ∀ (l : List String),
    insertSorted s l = List.orderedInsert (· ≤ ·) s l := by
  intro l
  induction l with
  | nil => rfl
  | cons k ks ih =>
      simp only [insertSorted, List.orderedInsert]
      by_cases h : s ≤ k
      · simp [h]
      · simp [h, ih]

theorem sortKeys_eq (l : List String) :
    sortKeys l = List.insertionSort (· ≤ ·) l := by
  induction l with
  | nil => rfl
  | cons k ks ih =>
      simp only [sortKeys, List.foldr_cons, List.insertionSort] at ih ⊢
      rw [ih, insertSorted_eq]

theorem sortKeys_sorted (l : List String) : List.Sorted (· ≤ ·) (sortKeys l) := by
  rw [sortKeys_eq]
  exact List.sorted_insertionSort _ l

theorem sortKeys_perm (l : List String) : (sortKeys l).Perm l := by
  rw [sortKeys_eq]
  exact List.perm_insertionSort _ l

theorem sortKeys_dedup_eq_of_mem_iff {l1 l2 : List String}
    (h : ∀ k, k ∈ l1 ↔ k ∈ l2) : sortKeys l1.dedup = sortKeys l2.dedup := by
  have h1 := sortKeys_perm l1.dedup
  have h2 := sortKeys_perm l2.dedup
  have hn1 : (sortKeys l1.dedup).Nodup := h1.nodup_iff.mpr (List.nodup_dedup l1)
  have hn2 : (sortKeys l2.dedup).Nodup := h2.nodup_iff.mpr (List.nodup_dedup l2)
  apply List.eq_of_perm_of_sorted ?_ (sortKeys_sorted _) (sortKeys_sorted _)
  apply List.perm_of_nodup_nodup_toFinset_eq hn1 hn2
  ext k
  simp [List.mem_toFinset, sortKeys_mem, List.mem_dedup, h k]

theorem collectKeys_raw_head (v : RawVal) (rest : List Node) :
    collectKeys (.raw v :: rest) = .error .attributeErr := by
  simp [collectKeys, collectKeysAux]

theorem collectKeys_eq_of_sub {var : AVariant} {cm cc : Bool} {md : Meta}
    {rest : List Node} {keys : List String}
    (h : collectKeys (.allele var cm cc md :: rest) = .ok keys)
    (hsub : ∀ k ∈ keys, k ∈ metaKeys md) :
    keys = sortKeys (metaKeys md).dedup := by
  have hmem : ∀ k ∈ metaKeys md, k ∈ keys := fun k hk =>
    collectKeys_mem h var cm cc md (List.mem_cons_self _ _) k hk
  simp only [collectKeys] at h
  split at h
  · exact absurd h (by simp)
  · rename_i u hu
    have hk : keys = sortKeys u.dedup := by cases h; rfl
    subst hk
    apply sortKeys_dedup_eq_of_mem_iff
    intro k
    constructor
    · intro hku
      exact hsub k (sortKeys_mem.mpr (List.mem_dedup.mpr hku))
    · intro hkm
      exact List.mem_dedup.mp (sortKeys_mem.mp (hmem k hkm))

theorem walkKeys_ok_keys_mem {n0 : Node} {rest : List Node}
    {handler : List Node → Option α} {inc : Node → Bool} :
    ∀ {keys : List String} {out : List α},
    walkKeys n0 rest keys handler inc = .ok out →
    ∀ k ∈ keys, ∃ c, lookupNode k n0 = .ok c := by
  intro keys
  induction keys with
  | nil =>
      intro out h k hk
      simp at hk
  | cons k0 ks ih =>
      intro out h k hk
      rw [walkKeys_cons_eq] at h
      split at h
      · exact absurd h (by simp)
      · rename_i w hw
        rcases List.mem_cons.mp hk with h1 | h1
        · subst h1
          exact ⟨_, hw⟩
        · exact ih h k h1
      · rename_i v2 m2 c2 md2 hw
        split at h
        · exact absurd h (by simp)
        · exact absurd h (by simp)
        · rename_i s0 srest hlook
          split at h
          · exact absurd h (by simp)
          · rename_i sub hsub2
            split at h
            · exact absurd h (by simp)
            · rename_i more hmore
              rcases List.mem_cons.mp hk with h1 | h1
              · subst h1
                exact ⟨_, hw⟩
              · exact ih hmore k h1

theorem lookupAll_filterMap {k : String} : ∀ {l vs : List Node},
    lookupAll k l = .ok vs → l.filterMap (childAt k) = vs := by
  intro l
  induction l with
  | nil =>
      intro vs h
      simp only [lookupAll] at h
      cases h
      rfl
  | cons a rest ih =>
      intro vs h
      obtain ⟨v, vrest, hv, hrest, heq⟩ := lookupAll_cons_inv h
      subst heq
      have hca : childAt k a = some v := by
        cases a with
        | raw w => simp [lookupNode] at hv
        | allele var cm cc md =>
            simp only [lookupNode] at hv
            rcases hy : lookupMeta k md with _ | c
            · rw [hy] at hv
              exact absurd hv (by simp)
            · rw [hy] at hv
              cases hv
              simpa [childAt] using hy
      rw [List.filterMap_cons_some hca, ih hrest]

theorem validateParallelTypes_ok_allele {var : AVariant} {cm cc : Bool} {md : Meta}
    {rest : List Node}
    (h : validateParallelTypes (.allele var cm cc md :: rest) = .ok ()) :
    ∀ a ∈ Node.allele var cm cc md :: rest, a.isAllele = true := by
  simp only [validateParallelTypes] at h
  split at h
  · rename_i hall
    intro a ha
    have h2 := List.all_eq_true.mp hall a ha
    cases a with
    | allele v2 m2 c2 md2 => rfl
    | raw w =>
        exfalso
        rcases w <;> rcases var <;> simp [Node.pyclass] at h2
  · exact absurd h (by simp)

theorem mapM_flatten_loop : ∀ (l : List Node) (acc : List Node),
    (∀ a ∈ l, a.isAllele = true ∧ wfNode a = true ∧ dictNode a = true) →
    List.mapM.loop Node.flatten l acc = .ok (acc.reverse ++ l.map specFlatten) := by
  intro l
  induction l with
  | nil =>
      intro acc h
      simp [List.mapM.loop, pure, Except.pure]
  | cons a rest ih =>
      intro acc h
      obtain ⟨hA, hw, hd⟩ := h a (List.mem_cons_self _ _)
      cases a with
      | raw v => simp [Node.isAllele] at hA
      | allele var cm cc md =>
          have hwv : wfVariant var = true ∧ wfMeta md = true := by
            simpa [wfNode, Bool.and_eq_true] using hw
          have hdd : (metaKeys md).Nodup ∧ dictMeta md = true := by
            simpa [dictNode, Bool.and_eq_true] using hd
          have hfl := @flatten_wf var cm cc md hwv.1 hdd.1
          simp only [List.mapM.loop, hfl, bind, Except.bind]
          rw [ih _ (fun b hb => h b (List.mem_cons_of_mem _ hb))]
          simp [specFlatten]

theorem mapM_flatten_spec {l : List Node}
    (h : ∀ a ∈ l, a.isAllele = true ∧ wfNode a = true ∧ dictNode a = true) :
    l.mapM Node.flatten = .ok (l.map specFlatten) := by
  have := mapM_flatten_loop l [] h
  simpa [List.mapM] using this

theorem wfdict_children {k : String} {ns vs : List Node}
    (hlook : lookupAll k ns = .ok vs)
    (h : ∀ a ∈ ns, wfNode a = true ∧ dictNode a = true) :
    ∀ s ∈ vs, wfNode s = true ∧ dictNode s = true := by
  intro s hs
  obtain ⟨a, ha, hlk⟩ := lookupAll_mem_inv hlook s hs
  obtain ⟨hw, hd⟩ := h a ha
  cases a with
  | raw v => simp [lookupNode] at hlk
  | allele var cm cc md =>
      have hv : lookupMeta k md = some s := by
        simp only [lookupNode] at hlk
        rcases hy : lookupMeta k md with _ | c
        · rw [hy] at hlk
          exact absurd hlk (by simp)
        · rw [hy] at hlk
          cases hlk
          rfl
      have hwm : wfMeta md = true := by
        simp only [wfNode, Bool.and_eq_true] at hw
        exact hw.2
      have hdm : dictMeta md = true := by
        simp only [dictNode, Bool.and_eq_true] at hd
        exact hd.2
      exact ⟨wfMeta_lookup hwm hv, dictMeta_lookup hdm hv⟩

theorem walkSpecAux (α : Type) (handler : List Node → Option α) (inc : Node → Bool) :
    ∀ (N : ℕ) (n0 : Node) (rest : List Node) (out : List α),
    sizeOf n0 + sizeOf rest ≤ N →
    (∀ a ∈ n0 :: rest, wfNode a = true ∧ dictNode a = true) →
    walkTrees n0 rest handler inc = .ok out →
    out = specWalkNs n0 rest handler inc := by
  intro N
  induction N with
  | zero =>
      intro n0 rest out hsz
      exfalso
      have h1 : 0 < sizeOf n0 := by
        cases n0 <;> simp <;> omega
      omega
  | succ N ih =>
      intro n0 rest out hsz hwd hok
      have hkeys_spec : ∀ (keys : List String) (n0b : Node) (restb : List Node)
          (outb : List α), sizeOf n0b + sizeOf restb ≤ N + 1 →
          (∀ a ∈ n0b :: restb, wfNode a = true ∧ dictNode a = true) →
          walkKeys n0b restb keys handler inc = .ok outb →
          outb = specWalkKeysNs n0b restb keys handler inc := by
        intro keys
        induction keys with
        | nil =>
            intro n0b restb outb hszb hwdb h
            simp only [walkKeys] at h
            cases h
            simp [specWalkKeysNs]
        | cons k ks ihk =>
            intro n0b restb outb hszb hwdb h
            rw [walkKeys_cons_eq] at h
            rw [specWalkKeysNs_cons_eq]
            split at h
            · exact absurd h (by simp)
            · rename_i w hw
              cases n0b with
              | raw v => simp [lookupNode] at hw
              | allele varb cmb ccb mdb =>
                  have hcv : childAt k (.allele varb cmb ccb mdb) = some (.raw w) := by
                    simp only [lookupNode] at hw
                    rcases hy : lookupMeta k mdb with _ | c
                    · rw [hy] at hw
                      exact absurd hw (by simp)
                    · rw [hy] at hw
                      cases hw
                      simpa [childAt] using hy
                  rw [hcv]
                  have hrec := ihk _ _ _ hszb hwdb h
                  simpa using hrec
            · rename_i v2 m2 c2 md2 hw
              split at h
              · exact absurd h (by simp)
              · exact absurd h (by simp)
              · rename_i s0 srest hlook
                split at h
                · exact absurd h (by simp)
                · rename_i sub hsub2
                  split at h
                  · exact absurd h (by simp)
                  · rename_i more hmore
                    have hout : outb = sub ++ more := by
                      cases h
                      rfl
                    subst hout
                    cases n0b with
                    | raw v => simp [lookupNode] at hw
                    | allele varb cmb ccb mdb =>
                        have hcv : childAt k (.allele varb cmb ccb mdb) =
                            some (.allele v2 m2 c2 md2) := by
                          simp only [lookupNode] at hw
                          rcases hy : lookupMeta k mdb with _ | c
                          · rw [hy] at hw
                            exact absurd hw (by simp)
                          · rw [hy] at hw
                            cases hw
                            simpa [childAt] using hy
                        rw [hcv]
                        obtain ⟨v0b, vrestb, hv0, hvrest, heq⟩ := lookupAll_cons_inv hlook
                        cases heq
                        rw [hw] at hv0
                        cases hv0
                        have hfm : restb.filterMap (childAt k) = srest :=
                          lookupAll_filterMap hvrest
                        have h1 : sub = specWalkNs (.allele v2 m2 c2 md2)
                            (restb.filterMap (childAt k)) handler inc := by
                          rw [hfm]
                          refine ih _ srest sub ?_ ?_ hsub2
                          · have hs1 := lookupNode_sizeOf hw
                            have hs2 := lookupAll_sizeOf hvrest
                            omega
                          · exact wfdict_children hlook hwdb
                        have h2 := ihk _ _ _ hszb hwdb hmore
                        rw [h1, h2]
      cases n0 with
      | raw v =>
          simp only [walkTrees] at hok
          split at hok
          · exact absurd hok (by simp)
          · split at hok
            · exact absurd hok (by simp)
            · rename_i keys hkeys
              rw [collectKeys_raw_head] at hkeys
              exact absurd hkeys (by simp)
      | allele var cm cc md =>
          simp only [walkTrees] at hok
          split at hok
          · exact absurd hok (by simp)
          · rename_i u hval
            cases u
            split at hok
            · exact absurd hok (by simp)
            · rename_i keys hkeys
              split at hok
              · exact absurd hok (by simp)
              · rename_i parts hparts
                have hksub : ∀ k ∈ keys, k ∈ metaKeys md := by
                  intro k hk
                  obtain ⟨c, hc⟩ := walkKeys_ok_keys_mem hparts k hk
                  simp only [lookupNode] at hc
                  rcases hy : lookupMeta k md with _ | c2
                  · rw [hy] at hc
                    exact absurd hc (by simp)
                  · exact (lookupMeta_mem_keys hy).1
                have hkeq : keys = sortKeys (metaKeys md).dedup :=
                  collectKeys_eq_of_sub hkeys hksub
                subst hkeq
                have hparts_eq : parts = specWalkKeysNs (.allele var cm cc md) rest
                    (sortKeys (metaKeys md).dedup) handler inc :=
                  hkeys_spec _ _ _ _ hsz hwd hparts
                simp only [specWalkNs]
                split at hok
                · rename_i hinc
                  split at hok
                  · exact absurd hok (by simp)
                  · rename_i flat hflat
                    have hall : ∀ a ∈ Node.allele var cm cc md :: rest,
                        a.isAllele = true ∧ wfNode a = true ∧ dictNode a = true := by
                      intro a ha
                      exact ⟨validateParallelTypes_ok_allele hval a ha,
                        (hwd a ha).1, (hwd a ha).2⟩
                    have hmf := mapM_flatten_spec hall
                    rw [hmf] at hflat
                    cases hflat
                    split at hok
                    · rename_i r hr
                      have hout : out = parts ++ [r] := by
                        cases hok
                        rfl
                      subst hout
                      rw [hparts_eq, if_pos hinc, hr]
                      rfl
                    · rename_i hr
                      have hout : out = parts := by
                        cases hok
                        rfl
                      subst hout
                      rw [hparts_eq, if_pos hinc, hr]
                      simp
                · rename_i hinc
                  have hout : out = parts := by
                    cases hok
                    rfl
                  subst hout
                  rw [hparts_eq, if_neg hinc]
                  simp

/-- A second two key tree, parallel in shape to walkExample. -/
def walkExample2 : Node :=
  .allele (.floatV 30 none none) true true
    [("a", .allele (.floatV 10 none none) true true []),
     ("b", .allele (.floatV 20 none none) true true [])]

/-- A handler that records the value of the second allele it is given. -/
def recordSecond : List Node → Option RawVal
  | _ :: .allele v _ _ _ :: _ => some v.value
  | _ => none

/-- C5: for every walk over a non-empty list of constructor produced, dict
shaped allele trees, the produced sequence is exactly the spec order:
children before the parent, the first tree's metadata keys in lexical
order, recursing in parallel only into allele valued metadata (raw
scalars are never recursed into), the handler applied to the flattened
trees after the children; in particular the two key tree with keys a and
b over parent value P records [a, b, P], and the parallel walk of two
such trees hands the handler the corresponding nodes of both trees in the
same order. -/
theorem claim_C5_walk_order :
    (∀ (α : Type) (n0 : Node) (rest : List Node) (handler : List Node → Option α)
        (includeMutate includeCrossbreed : Bool) (out : List α),
        (∀ a ∈ n0 :: rest, wfNode a = true ∧ dictNode a = true) →
        walk_allele_trees (n0 :: rest) handler includeMutate includeCrossbreed
          = .ok out →
        out = specWalkNs n0 rest handler
          (shouldIncludeFlags includeMutate includeCrossbreed))
    ∧ walk_allele_trees [walkExample] recordValues true true
        = .ok [.rq 1, .rq 2, .rq 3]
    ∧ walk_allele_trees [walkExample, walkExample2] recordSecond true true
        = .ok [.rq 10, .rq 20, .rq 30] := by
  refine ⟨?_, ?_, ?_⟩
  · intro α n0 rest handler im ic out hwd hok
    exact walkSpecAux α handler (shouldIncludeFlags im ic)
      (sizeOf n0 + sizeOf rest) n0 rest out le_rfl hwd hok
  · simp +decide [walk_allele_trees, walkTrees, walkKeys, validateParallelTypes,
      collectKeys, collectKeysAux, metaKeys, sortKeys, insertSorted, lookupNode,
      lookupAll, lookupMeta, shouldIncludeFlags, Node.flatten, Node.withMetadata,
      mkAllele, updateMeta, flattenEntry, Node.pyclass, AVariant.value, clampQ,
      List.mapM, List.mapM.loop, List.dedup, recordValues, walkExample]
  · simp +decide [walk_allele_trees, walkTrees, walkKeys, validateParallelTypes,
      collectKeys, collectKeysAux, metaKeys, sortKeys, insertSorted, lookupNode,
      lookupAll, lookupMeta, shouldIncludeFlags, Node.flatten, Node.withMetadata,
      mkAllele, updateMeta, flattenEntry, Node.pyclass, AVariant.value, clampQ,
      List.mapM, List.mapM.loop, List.dedup, recordSecond, walkExample, walkExample2,
      bind, Except.bind, pure, Except.pure]

/-- Witness for C5: the general parallel order theorem applied to the
concrete walk of the two parallel two key trees. -/
theorem claim_C5_walk_order_witness :
    [RawVal.rq 10, RawVal.rq 20, RawVal.rq 30] =
      specWalkNs walkExample [walkExample2] recordSecond
        (shouldIncludeFlags true true) := by
  apply claim_C5_walk_order.1 RawVal walkExample [walkExample2] recordSecond
    true true
  · intro a ha
    rcases List.mem_cons.mp ha with h1 | h1
    · subst h1
      constructor
      · simp [walkExample, wfNode, wfMeta, wfVariant, clampQ]
      · simp [walkExample, dictNode, dictMeta, metaKeys]
    · have h2 : a = walkExample2 := by simpa using h1
      subst h2
      constructor
      · simp [walkExample2, wfNode, wfMeta, wfVariant, clampQ]
      · simp [walkExample2, dictNode, dictMeta, metaKeys]
  · exact claim_C5_walk_order.2.2

end ClanTune
